import Mathlib

/-!
# similar: similarity graph construction and clustering

A shallow embedding of `similar.cc`: the similarity graph is built from the
relevance matches of every indexed document (`populate_similarity_graph`),
its strong components are computed by the Boost Graph Library routine
`strong_components` (Tarjan's algorithm run by `depth_first_search`), and the
non trivial components are printed (`find_strong_components`).
-/

namespace Similar

/-! ## The similarity graph (`adjacency_list<>`) -/

/-- The type `similarity_graph` is `adjacency_list<>`: the vertices are `0 .. n-1` and
each one owns the sequence of the targets of its out-edges, in insertion order. -/
abbrev similarity_graph := List (List Nat)

/-- Number of vertices of the graph. -/
def num_vertices (g : similarity_graph) : Nat := g.length

/-- Targets of the out-edges of `v`, in insertion order. -/
def out_edges (g : similarity_graph) (v : Nat) : List Nat := g.getD v []

/-- The constructor `similarity_graph graph(n)`: `n` vertices and no edge. -/
def empty_graph (n : Nat) : similarity_graph := List.replicate n []

/-- The call `add_edge(u, v, graph)` on a vector based adjacency list: the vertex
vector is first resized to `max(u, v) + 1` when that is more than its current size, then
`v` is appended to the out-edges of `u`. -/
def add_edge (u v : Nat) (g : similarity_graph) : similarity_graph :=
  let x := max u v
  let g1 := if x ≥ g.length then g ++ List.replicate (x + 1 - g.length) [] else g
  g1.set u (g1.getD u [] ++ [v])

/-! ## The database (Xapian) -/

/-- What the program observes of the Xapian database once the directory is indexed.
`get_mset threshold id` is the sequence of document ids of the match set computed at
lines 123-134 for document `id` with the given cutoff; `none` stands for a query that
throws a `Xapian::Error`. -/
structure Database where
  /-- Value of `db.get_lastdocid()`. -/
  get_lastdocid : Nat
  /-- Value of `db.get_document(id).get_data()`: the path of the indexed file. -/
  get_data : Nat → String
  /-- Match set of the similarity query of a document. -/
  get_mset : Int → Nat → Option (List Nat)

/-- Inner loop of `populate_similarity_graph` (lines 135-138): one edge per match
that is not the document itself. -/
def add_matches (id : Nat) (ms : List Nat) (graph : similarity_graph) : similarity_graph :=
  ms.foldl (fun g i => if i ≠ id then add_edge id i g else g) graph

/-- Body of the outer loop of `populate_similarity_graph` for the document `id`; an
exception thrown by the query is not caught and leaves the function. -/
def populate_step (db : Database) (threshold : Int) (graph : similarity_graph) (id : Nat) :
    Option similarity_graph :=
  match db.get_mset threshold id with
  | none => none
  | some ms => some (add_matches id ms graph)

/-- The ids visited by `for (int id = 1; id < db.get_lastdocid(); id++)`. -/
def populate_ids (db : Database) : List Nat := List.range' 1 (db.get_lastdocid - 1)

/-- The function `populate_similarity_graph(db, threshold, graph)`. -/
def populate_similarity_graph (db : Database) (threshold : Int) (graph : similarity_graph) :
    Option similarity_graph :=
  (populate_ids db).foldlM (populate_step db threshold) graph

/-! ## Boost `strong_components`: Tarjan's algorithm -/

/-- Modelled from the spec: the colours of Boost's `depth_first_search` that the search
uses (`default_color_type`). -/
inductive default_color_type where
  | white_color
  | gray_color
  | black_color
  deriving DecidableEq, Repr

open default_color_type

/-- Modelled from the spec: write to a vertex indexed property map of Boost,
`put(map, k, x)`. -/
def put {α : Type} (m : Nat → α) (k : Nat) (x : α) : Nat → α :=
  fun j => if j = k then x else m j

/-- Modelled from the spec: the value `(std::numeric_limits<int>::max)()`, with which
Boost's visitor marks in the component map the vertices that have no component yet. -/
def comp_max : Nat := 2147483647

/-- Modelled from the spec: the library routine `strong_components` (Boost Graph
Library) is not part of the repository; the spec asks for "Tarjan's or an equivalent
depth-first, single-pass algorithm with a discovery-time/low-link scheme", "each vertex
pushed once, popped once". This is the state of Boost's `tarjan_scc_visitor` together
with the colour map of the search: the four vectors allocated by
`find_strong_components` (lines 145-147), the clock `dfs_time`, the component counter
`c` and the stack `s` (top first). -/
structure tarjan_state where
  color : Nat → default_color_type
  comp : Nat → Nat
  root : Nat → Nat
  discover_time : Nat → Nat
  dfs_time : Nat
  c : Nat
  s : List Nat

/-- Modelled from the spec: state at the start of `depth_first_search`; the vectors are
zero initialised and every vertex is white. -/
def tarjan_init : tarjan_state where
  color := fun _ => white_color
  comp := fun _ => 0
  root := fun _ => 0
  discover_time := fun _ => 0
  dfs_time := 0
  c := 0
  s := []

/-- Modelled from the spec: the search colours `v` gray and calls
`tarjan_scc_visitor::discover_vertex`, which makes `v` its own root, marks its component
as unknown, stamps its discovery time and pushes it. -/
def discover_vertex (v : Nat) (st : tarjan_state) : tarjan_state :=
  { st with
    color := put st.color v gray_color
    root := put st.root v v
    comp := put st.comp v comp_max
    discover_time := put st.discover_time v st.dfs_time
    dfs_time := st.dfs_time + 1
    s := v :: st.s }

/-- Modelled from the spec: `min_discover_time(u, v)` of the visitor. -/
def min_discover_time (dt : Nat → Nat) (u v : Nat) : Nat :=
  if dt u < dt v then u else v

/-- Modelled from the spec: first loop of `finish_vertex`: for every out-edge `v -> w`
whose target has no component yet, the root of `v` becomes the earlier discovered of the
root of `v` and the root of `w`. -/
def finish_roots (st : tarjan_state) (v : Nat) (ws : List Nat) : Nat → Nat :=
  ws.foldl (fun root w =>
    if st.comp w = comp_max then
      put root v (min_discover_time st.discover_time (root v) (root w))
    else root) st.root

/-- Modelled from the spec: second loop of `finish_vertex`,
`do { w = s.top(); s.pop(); put(comp, w, c); put(root, w, v); } while (w != v);`
where the first argument of the recursion is the stack that is left. -/
def pop_component (v : Nat) : List Nat → tarjan_state → tarjan_state
  | [], st => { st with s := [] }
  | w :: rest, st =>
    let st1 := { st with s := rest, comp := put st.comp w st.c, root := put st.root w v }
    if w = v then st1 else pop_component v rest st1

/-- Modelled from the spec: the search colours `v` black and calls
`tarjan_scc_visitor::finish_vertex`: the root of `v` is computed from its out-edges and,
when `v` is its own root, the stack is popped down to `v`, the popped vertices get the
component number `c`, and `c` is incremented. -/
def finish_vertex (g : similarity_graph) (v : Nat) (st : tarjan_state) : tarjan_state :=
  let st1 := { st with color := put st.color v black_color }
  let st2 := { st1 with root := finish_roots st1 v (out_edges g v) }
  if st2.root v = v then
    let st3 := pop_component v st2.s st2
    { st3 with c := st3.c + 1 }
  else st2

/-- Modelled from the spec: loop of Boost's depth first visit over a sequence of
vertices (the targets of the out-edges of a vertex, or all the vertices of the graph):
the white ones are visited by `visit`, the others are skipped. -/
def visit_edges (visit : Nat → tarjan_state → Option tarjan_state) :
    List Nat → tarjan_state → Option tarjan_state
  | [], st => some st
  | v :: vs, st =>
    if st.color v = white_color then
      match visit v st with
      | none => none
      | some st1 => visit_edges visit vs st1
    else visit_edges visit vs st

/-- Modelled from the spec: Boost's `depth_first_visit` from the white vertex `u`,
written recursively: `u` is discovered, its out-edges are followed in order, and `u` is
finished. The first argument bounds the depth of the recursion; `none` is returned when
it is exhausted, which `visit_spec` shows never happens from `depth_first_search`. -/
def depth_first_visit (g : similarity_graph) : Nat → Nat → tarjan_state → Option tarjan_state
  | 0, _, _ => none
  | fuel + 1, u, st =>
    match visit_edges (fun v st1 => depth_first_visit g fuel v st1) (out_edges g u)
        (discover_vertex u st) with
    | none => none
    | some st2 => some (finish_vertex g u st2)

/-- Modelled from the spec: `depth_first_search`: every vertex is white, then the
vertices are taken in increasing order (starting at vertex 0) and the white ones are
visited. -/
def depth_first_search (g : similarity_graph) : Option tarjan_state :=
  visit_edges (fun v st => depth_first_visit g (num_vertices g) v st)
    (List.range (num_vertices g)) tarjan_init

/-- Modelled from the spec: `strong_components(G, component, ...)`: returns the number
of components and the component map. -/
def strong_components (g : similarity_graph) : Option (Nat × (Nat → Nat)) :=
  match depth_first_search g with
  | none => none
  | some st => some (st.c, st.comp)

/-! ## The report -/

/-- Inner loop of the report (lines 159-163): the vertices `j` with
`1 ≤ j < num_vertices(G)` whose component is `i`, in increasing order. -/
def component_members (component : Nat → Nat) (nv i : Nat) : List Nat :=
  (List.range' 1 (nv - 1)).filter (fun j => component j = i)

/-- Outer loop of the report (lines 156-166): for `i` from `1` to `num - 1`, the
members of component `i` are gathered and the block is printed when there is more than
one. The result lists the printed blocks as (component id, member vertices). -/
def report_blocks (num : Nat) (component : Nat → Nat) (nv : Nat) : List (Nat × List Nat) :=
  ((List.range' 1 (num - 1)).map (fun i => (i, component_members component nv i))).filter
    (fun b => b.2.length > 1)

/-- Printed blocks of `find_strong_components(db, G)`, as vertex ids. -/
def find_strong_components_ids (g : similarity_graph) : Option (List (Nat × List Nat)) :=
  match strong_components g with
  | none => none
  | some (num, component) => some (report_blocks num component (num_vertices g))

/-- The function `find_strong_components(db, G)`: the printed blocks, each one the list
of the labels `db.get_document(j).get_data()` of its members. -/
def find_strong_components (db : Database) (g : similarity_graph) :
    Option (List (List String)) :=
  match find_strong_components_ids g with
  | none => none
  | some blocks => some (blocks.map (fun b => b.2.map db.get_data))

/-! ## The program -/

/-- Lines 203-205 of `main`: the graph is created with `get_lastdocid() + 1` vertices,
populated, and its non trivial strong components are printed. `none` when the run is
ended by an exception before the report. -/
def main_clusters (db : Database) (threshold : Int) : Option (List (List String)) :=
  match populate_similarity_graph db threshold (empty_graph (db.get_lastdocid + 1)) with
  | none => none
  | some graph => find_strong_components db graph

/-- What `main` reads from the command line and the file system. -/
structure Environment where
  /-- Number of command line arguments. -/
  argc : Nat
  /-- Value of `atoi(argv[2])`. -/
  threshold : Int
  /-- Whether the path exists and is a directory. -/
  is_directory : Bool
  /-- Whether the temporary database `.tmp-similar-db` already exists in the directory. -/
  db_exists : Bool
  /-- The database once `index_directory` has indexed the files of the directory; `none`
  when `index_file` meets a `Xapian::Error` and calls `exit(1)`. -/
  indexed : Option Database
  /-- Whether `remove_all(db_path)` succeeds. -/
  remove_ok : Bool

/-- The steps of `main` after the checks of its arguments: the calls of lines 200, 204,
205 and 211, and the construction of the graph at line 203. -/
inductive Step where
  | index_directory
  | create_graph
  | populate_similarity_graph
  | find_strong_components
  | remove_all
  deriving DecidableEq, Repr

/-- How `main` ends: `exit(-1)` after one of its error messages, `exit(1)` in
`index_file`, an exception that no handler catches, or `return 0`. -/
inductive Status where
  | usage
  | threshold_out_of_range
  | not_a_directory
  | database_exists
  | index_failed
  | remove_failed
  | uncaught_exception
  | returned
  deriving DecidableEq, Repr

/-- Observable behaviour of a run of `main`: how it ends, which functions it has
called, and the blocks it has printed. -/
structure Outcome where
  status : Status
  steps : List Step
  report : Option (List (List String))

/-- The function `main`. -/
def main (env : Environment) : Outcome :=
  if env.argc ≠ 3 then ⟨Status.usage, [], none⟩
  else if env.threshold > 100 ∨ env.threshold < 0 then
    ⟨Status.threshold_out_of_range, [], none⟩
  else if env.is_directory = false then ⟨Status.not_a_directory, [], none⟩
  else if env.db_exists = true then ⟨Status.database_exists, [], none⟩
  else
    match env.indexed with
    | none => ⟨Status.index_failed, [Step.index_directory], none⟩
    | some db =>
      match populate_similarity_graph db env.threshold (empty_graph (db.get_lastdocid + 1)) with
      | none =>
        ⟨Status.uncaught_exception,
          [Step.index_directory, Step.create_graph, Step.populate_similarity_graph], none⟩
      | some graph =>
        if env.remove_ok = true then
          ⟨Status.returned,
            [Step.index_directory, Step.create_graph, Step.populate_similarity_graph,
              Step.find_strong_components, Step.remove_all],
            find_strong_components db graph⟩
        else
          ⟨Status.remove_failed,
            [Step.index_directory, Step.create_graph, Step.populate_similarity_graph,
              Step.find_strong_components, Step.remove_all],
            find_strong_components db graph⟩

/-! ## Specification vocabulary, invariants and example corpora -/

/-- There is an edge `x -> y` in the graph. -/
def edge (g : similarity_graph) (x y : Nat) : Prop := y ∈ out_edges g x

/-- There is a directed path (possibly empty) from `x` to `y`. -/
def reachable (g : similarity_graph) : Nat → Nat → Prop := Relation.ReflTransGen (edge g)

/-- Every edge target is a vertex of the graph (the invariant of `adjacency_list`). -/
def wf_graph (g : similarity_graph) : Prop := ∀ es ∈ g, ∀ y ∈ es, y < g.length

instance (g : similarity_graph) : Decidable (wf_graph g) := by
  unfold wf_graph; infer_instance

/-- A vertex whose component is complete: black and no longer on the stack. -/
def finished (st : tarjan_state) (v : Nat) : Prop :=
  st.color v = black_color ∧ v ∉ st.s

/-- The white vertices of the graph. -/
def white_set (g : similarity_graph) (st : tarjan_state) : Finset Nat :=
  (Finset.range (num_vertices g)).filter (fun v => st.color v = white_color)

/-- The invariant kept by the depth first search between two visitor events. -/
structure Inv (g : similarity_graph) (st : tarjan_state) : Prop where
  lt_of_nonwhite : ∀ v, st.color v ≠ white_color → v < num_vertices g
  gray_stack : ∀ v, st.color v = gray_color → v ∈ st.s
  stack_nonwhite : ∀ v ∈ st.s, st.color v ≠ white_color
  stack_comp : ∀ v ∈ st.s, st.comp v = comp_max
  done_comp : ∀ v, finished st v → st.comp v < st.c
  stack_sorted : st.s.Pairwise (fun a b => st.discover_time b < st.discover_time a)
  stack_time : ∀ v ∈ st.s, st.discover_time v < st.dfs_time
  count : st.c + st.s.length ≤ st.dfs_time
  time : st.dfs_time + (white_set g st).card = num_vertices g
  no_black_white : ∀ x y, st.color x = black_color → edge g x y → st.color y ≠ white_color
  gray_reach : ∀ x y, st.color x = gray_color → y ∈ st.s →
    st.discover_time x ≤ st.discover_time y → reachable g x y
  stack_gray : ∀ y ∈ st.s, ∃ x, st.color x = gray_color ∧
    st.discover_time x ≤ st.discover_time y ∧ reachable g y x
  done_closed : ∀ v w, finished st v → edge g v w → finished st w
  done_scc : ∀ v w, finished st v → finished st w →
    (st.comp v = st.comp w ↔ reachable g v w ∧ reachable g w v)
  comp_used : ∀ k, k < st.c → ∃ v, finished st v ∧ st.comp v = k
  gray_root : ∀ v, st.color v = gray_color → st.root v = v
  stack_root : ∀ w ∈ st.s, st.root w ∈ st.s ∧
    st.discover_time (st.root w) ≤ st.discover_time w ∧ reachable g w (st.root w)

/-- What a visit may change: the vertices that were not white keep everything, the
white ones stay white or become black, the stack only grows by vertices that were
white and are now black, and the new component numbers start at the old counter. -/
structure Ext (st st1 : tarjan_state) : Prop where
  frame : ∀ v, st.color v ≠ white_color →
    st1.color v = st.color v ∧ st1.comp v = st.comp v ∧ st1.root v = st.root v ∧
      st1.discover_time v = st.discover_time v
  newcolor : ∀ v, st.color v = white_color →
    st1.color v = white_color ∨ st1.color v = black_color
  stack : ∃ seg, st1.s = seg ++ st.s ∧
    ∀ y ∈ seg, st.color y = white_color ∧ st1.color y = black_color
  time_mono : st.dfs_time ≤ st1.dfs_time
  c_mono : st.c ≤ st1.c
  new_comp : ∀ v, st.color v = white_color → finished st1 v → st.c ≤ st1.comp v

/-- Edges that leave what a visit of `u` pushed: every edge from a vertex pushed by the
visit, and still on the stack, to a vertex of the old stack goes at or above the root
found for `u`. -/
def XEdge (g : similarity_graph) (u : Nat) (st st1 : tarjan_state) : Prop :=
  ∀ y, y ∈ st1.s → st.color y = white_color →
    u ∈ st1.s ∧ ∀ z ∈ st.s, edge g y z →
      st1.discover_time (st1.root u) ≤ st1.discover_time z

/-- The same property during the loop over the out-edges of `u`, before the root of `u`
is computed: the bound is the root of some successor of `u` that is on the stack. -/
def XLoop (g : similarity_graph) (u : Nat) (st sa : tarjan_state) : Prop :=
  ∀ y, y ∈ sa.s → y ≠ u → st.color y = white_color → ∀ z ∈ st.s, edge g y z →
    ∃ w, edge g u w ∧ w ∈ sa.s ∧ sa.discover_time (sa.root w) ≤ sa.discover_time z

/-- State of the search when the out-edges of `u` have all been examined: `st` is the
state in which `u` was discovered and `sb` the current one. -/
structure FinishCtx (g : similarity_graph) (u : Nat) (st sb : tarjan_state) : Prop where
  hmax : num_vertices g ≤ comp_max
  inv0 : Inv g st
  white : st.color u = white_color
  inv : Inv g sb
  ext : Ext (discover_vertex u st) sb
  succ : ∀ w, edge g u w → sb.color w ≠ white_color
  xloop : XLoop g u st sb

/-- State after the first loop of `finish_vertex`: `u` is black and its root is
computed. -/
def finish_mark (g : similarity_graph) (u : Nat) (sb : tarjan_state) : tarjan_state :=
  { sb with color := put sb.color u black_color, root := finish_roots sb u (out_edges g u) }

/-- The state `sp` after `finish_vertex` has popped the component of `u`; `seg` is the
part of the stack above `u`. -/
structure Popped (u : Nat) (st sb : tarjan_state) (seg : List Nat) (sp : tarjan_state) :
    Prop where
  hs : sb.s = seg ++ u :: st.s
  hu : u ∉ seg
  hseg : ∀ y ∈ seg, st.color y = white_color ∧ y ≠ u ∧ sb.color y = black_color
  e_s : sp.s = st.s
  e_c : sp.c = sb.c + 1
  e_color : sp.color = put sb.color u black_color
  e_dt : sp.discover_time = sb.discover_time
  e_time : sp.dfs_time = sb.dfs_time
  e_comp : ∀ w, sp.comp w = if w ∈ seg ∨ w = u then sb.c else sb.comp w
  e_root : ∀ w, sp.root w = if w ∈ seg ∨ w = u then u else sb.root w

/-- Document `b` is in the match set of the query of document `a`. -/
def in_mset (db : Database) (threshold : Int) (a b : Nat) : Prop :=
  ∃ ms, db.get_mset threshold a = some ms ∧ b ∈ ms

/-- A chain step: `b` is a match of the query of `a`, other than `a` itself. -/
def match_step (db : Database) (threshold : Int) (a b : Nat) : Prop :=
  in_mset db threshold a b ∧ b ≠ a

/-- A chain of relevance matches from `a` to `b`. -/
def match_chain (db : Database) (threshold : Int) : Nat → Nat → Prop :=
  Relation.ReflTransGen (match_step db threshold)

/-- The provider answers every query of a document `1 .. get_lastdocid` with ids
in `1 .. get_lastdocid`. -/
def provider_in_range (db : Database) (threshold : Int) : Prop :=
  ∀ id, 1 ≤ id → id ≤ db.get_lastdocid →
    ∃ ms, db.get_mset threshold id = some ms ∧ ∀ m ∈ ms, 1 ≤ m ∧ m ≤ db.get_lastdocid

/-- The provider answers every query of a document `1 .. get_lastdocid` with ids
that fit the `int` indices of the component array. -/
def provider_answers (db : Database) (threshold : Int) : Prop :=
  ∀ id, 1 ≤ id → id ≤ db.get_lastdocid →
    ∃ ms, db.get_mset threshold id = some ms ∧ ∀ m ∈ ms, m < comp_max

/-- Two documents that match each other. -/
def mutual_pair : Database where
  get_lastdocid := 2
  get_data := fun j => if j = 1 then "doc1" else "doc2"
  get_mset := fun _ id => if id = 1 then some [2] else if id = 2 then some [1] else some []

/-- Scenario A of the specification: `doc1` and `doc2` match each other, `doc3` has no
match. -/
def scenario_a : Database where
  get_lastdocid := 3
  get_data := fun j => if j = 1 then "doc1" else if j = 2 then "doc2" else "doc3"
  get_mset := fun _ id => if id = 1 then some [2] else if id = 2 then some [1] else some []

/-- Four documents; the query of `doc1` fails, `doc2` and `doc3` match each other. -/
def failing_query : Database where
  get_lastdocid := 4
  get_data := fun j =>
    if j = 1 then "doc1" else if j = 2 then "doc2" else if j = 3 then "doc3" else "doc4"
  get_mset := fun _ id =>
    if id = 1 then none else if id = 2 then some [3] else if id = 3 then some [2] else some []

/-- The database in which the query of `d` returns no match. -/
def with_empty_result (db : Database) (d : Nat) : Database :=
  { db with get_mset := fun t id => if id = d then some [] else db.get_mset t id }

/-- A command line `similar dir 80` on a directory indexed as Scenario A. -/
def scenario_a_env : Environment where
  argc := 3
  threshold := 80
  is_directory := true
  db_exists := false
  indexed := some scenario_a
  remove_ok := true

/-- Scenario D of the specification: the only match of `doc1` is `doc1` itself. -/
def scenario_d : Database where
  get_lastdocid := 2
  get_data := fun j => if j = 1 then "doc1" else "doc2"
  get_mset := fun _ id => if id = 1 then some [1] else some []

/-- A command line `similar dir 80` on a directory indexed as `failing_query`. -/
def failing_query_env : Environment where
  argc := 3
  threshold := 80
  is_directory := true
  db_exists := false
  indexed := some failing_query
  remove_ok := true

/-! ## Basic facts on property maps and edges -/

@[simp]
theorem put_same {α : Type} (m : Nat → α) (k : Nat) (x : α) : put m k x k = x := by
  simp [put]

theorem put_other {α : Type} (m : Nat → α) (k : Nat) (x : α) (j : Nat) (h : j ≠ k) :
    put m k x j = m j := by
  simp [put, h]

theorem put_apply {α : Type} (m : Nat → α) (k : Nat) (x : α) (j : Nat) :
    put m k x j = if j = k then x else m j := rfl

theorem out_edges_lt {g : similarity_graph} (hg : wf_graph g) {x y : Nat}
    (h : y ∈ out_edges g x) : y < num_vertices g := by
  unfold out_edges at h
  by_cases hx : x < g.length
  · rw [List.getD_eq_getElem _ _ hx] at h
    exact hg _ (List.getElem_mem hx) y h
  · rw [List.getD_eq_default _ _ (by omega)] at h
    simp at h

theorem out_edges_src_lt {g : similarity_graph} {x y : Nat}
    (h : y ∈ out_edges g x) : x < num_vertices g := by
  unfold out_edges at h
  by_contra hx
  rw [List.getD_eq_default _ _ (by unfold num_vertices at hx; omega)] at h
  simp at h

/-! ## Counting white vertices -/

theorem white_set_card_le (g : similarity_graph) (st : tarjan_state) :
    (white_set g st).card ≤ num_vertices g := by
  unfold white_set
  calc _ ≤ (Finset.range (num_vertices g)).card := Finset.card_filter_le _ _
    _ = num_vertices g := Finset.card_range _

theorem white_set_mono (g : similarity_graph) (st st1 : tarjan_state)
    (h : ∀ v, st1.color v = white_color → st.color v = white_color) :
    (white_set g st1).card ≤ (white_set g st).card := by
  apply Finset.card_le_card
  intro v hv
  simp only [white_set, Finset.mem_filter] at hv ⊢
  exact ⟨hv.1, h v hv.2⟩

theorem white_set_congr (g : similarity_graph) (st st1 : tarjan_state)
    (h : ∀ v, st1.color v = white_color ↔ st.color v = white_color) :
    (white_set g st1).card = (white_set g st).card := by
  apply le_antisymm
  · exact white_set_mono g st st1 (fun v => (h v).1)
  · exact white_set_mono g st1 st (fun v => (h v).2)

theorem white_set_pos (g : similarity_graph) (st : tarjan_state) (u : Nat)
    (hu : u < num_vertices g) (hw : st.color u = white_color) :
    0 < (white_set g st).card := by
  apply Finset.card_pos.2
  exact ⟨u, by simp [white_set, hu, hw]⟩

theorem white_set_discover (g : similarity_graph) (st : tarjan_state) (u : Nat)
    (hu : u < num_vertices g) (hw : st.color u = white_color) :
    (white_set g (discover_vertex u st)).card + 1 = (white_set g st).card := by
  have hmem : u ∈ white_set g st := by simp [white_set, hu, hw]
  have : white_set g (discover_vertex u st) = (white_set g st).erase u := by
    ext v
    simp only [white_set, discover_vertex, Finset.mem_filter, Finset.mem_range,
      Finset.mem_erase, put_apply]
    by_cases hv : v = u
    · subst hv; simp
    · simp [hv]
  rw [this, Finset.card_erase_of_mem hmem]
  have := Finset.card_pos.2 ⟨u, hmem⟩
  omega

/-! ## The two loops of `finish_vertex` -/

theorem pop_component_cons (v a : Nat) (l : List Nat) (st : tarjan_state) (ha : a ≠ v) :
    pop_component v (a :: l) st =
      pop_component v l { st with s := l, comp := put st.comp a st.c, root := put st.root a v } := by
  rw [pop_component]
  simp [ha]

theorem pop_component_spec (v : Nat) (seg rest : List Nat) (hv : v ∉ seg) :
    ∀ st : tarjan_state,
      (pop_component v (seg ++ v :: rest) st).s = rest ∧
      (pop_component v (seg ++ v :: rest) st).c = st.c ∧
      (pop_component v (seg ++ v :: rest) st).color = st.color ∧
      (pop_component v (seg ++ v :: rest) st).discover_time = st.discover_time ∧
      (pop_component v (seg ++ v :: rest) st).dfs_time = st.dfs_time ∧
      (∀ w, (pop_component v (seg ++ v :: rest) st).comp w =
        if w ∈ seg ∨ w = v then st.c else st.comp w) ∧
      (∀ w, (pop_component v (seg ++ v :: rest) st).root w =
        if w ∈ seg ∨ w = v then v else st.root w) := by
  induction seg with
  | nil =>
    intro st
    simp [pop_component, put_apply]
  | cons a seg ih =>
    intro st
    have ha : a ≠ v := fun h => hv (by simp [h])
    have hv1 : v ∉ seg := fun h => hv (by simp [h])
    obtain ⟨h1, h2, h3, h4, h5, h6, h7⟩ :=
      ih hv1 { st with s := seg ++ v :: rest, comp := put st.comp a st.c, root := put st.root a v }
    rw [List.cons_append, pop_component_cons v a _ st ha]
    refine ⟨h1, h2, h3, h4, h5, ?_, ?_⟩
    · intro w
      rw [h6 w]
      by_cases hw : w = a
      · subst hw; simp [ha]
      · simp [put_apply, hw]
    · intro w
      rw [h7 w]
      by_cases hw : w = a
      · subst hw; simp [ha]
      · simp [put_apply, hw]

theorem finish_roots_cons (st : tarjan_state) (v a : Nat) (ws : List Nat) :
    finish_roots st v (a :: ws) =
      finish_roots { st with root := (if st.comp a = comp_max then
          put st.root v (min_discover_time st.discover_time (st.root v) (st.root a))
        else st.root) } v ws := by
  simp [finish_roots]

theorem min_discover_time_le_left (dt : Nat → Nat) (u v : Nat) :
    dt (min_discover_time dt u v) ≤ dt u := by
  unfold min_discover_time; split_ifs <;> omega

theorem min_discover_time_le_right (dt : Nat → Nat) (u v : Nat) :
    dt (min_discover_time dt u v) ≤ dt v := by
  unfold min_discover_time; split_ifs <;> omega

theorem min_discover_time_cases (dt : Nat → Nat) (u v : Nat) :
    min_discover_time dt u v = u ∨ min_discover_time dt u v = v := by
  unfold min_discover_time; split_ifs <;> simp

theorem finish_roots_spec (v : Nat) (ws : List Nat) :
    ∀ st : tarjan_state,
      (∀ w, w ≠ v → finish_roots st v ws w = st.root w) ∧
      (finish_roots st v ws v = st.root v ∨
        ∃ w ∈ ws, st.comp w = comp_max ∧ w ≠ v ∧ finish_roots st v ws v = st.root w) ∧
      st.discover_time (finish_roots st v ws v) ≤ st.discover_time (st.root v) ∧
      (∀ w ∈ ws, st.comp w = comp_max → w ≠ v →
        st.discover_time (finish_roots st v ws v) ≤ st.discover_time (st.root w)) := by
  induction ws with
  | nil => intro st; simp [finish_roots]
  | cons a ws ih =>
    intro st
    rw [finish_roots_cons]
    by_cases hc : st.comp a = comp_max
    · simp only [hc, if_true]
      obtain ⟨h1, h2, h3, h4⟩ := ih { st with root := (put st.root v
          (min_discover_time st.discover_time (st.root v) (st.root a))) }
      simp only at h1 h2 h3 h4
      have hρ1o : ∀ w, w ≠ v →
          put st.root v (min_discover_time st.discover_time (st.root v) (st.root a)) w
            = st.root w := fun w hw => put_other _ _ _ _ hw
      rw [put_same] at h2 h3
      have hmin1 := min_discover_time_le_left st.discover_time (st.root v) (st.root a)
      have hmin2 := min_discover_time_le_right st.discover_time (st.root v) (st.root a)
      refine ⟨fun w hw => (h1 w hw).trans (hρ1o w hw), ?_, h3.trans hmin1, ?_⟩
      · rcases h2 with h2 | ⟨w, hw, hcw, hwv, hR⟩
        · by_cases hav : a = v
          · left; rw [h2, hav]
            rcases min_discover_time_cases st.discover_time (st.root v) (st.root v) with h | h <;>
              exact h
          · rcases min_discover_time_cases st.discover_time (st.root v) (st.root a) with h | h
            · left; rw [h2, h]
            · right; exact ⟨a, by simp, hc, hav, by rw [h2, h]⟩
        · right
          exact ⟨w, by simp [hw], hcw, hwv, by rw [hR, hρ1o w hwv]⟩
      · intro w hw hcw hwv
        rcases List.mem_cons.1 hw with rfl | hw
        · exact h3.trans hmin2
        · have := h4 w hw hcw hwv
          rwa [hρ1o w hwv] at this
    · simp only [hc, if_false]
      obtain ⟨h1, h2, h3, h4⟩ := ih st
      refine ⟨h1, ?_, h3, ?_⟩
      · rcases h2 with h2 | ⟨w, hw, hcw, hwv, hR⟩
        · left; exact h2
        · right; exact ⟨w, by simp [hw], hcw, hwv, hR⟩
      · intro w hw hcw hwv
        rcases List.mem_cons.1 hw with rfl | hw
        · exact absurd hcw hc
        · exact h4 w hw hcw hwv

/-! ## Invariant of the search -/

theorem Ext.refl (st : tarjan_state) : Ext st st where
  frame := fun _ _ => ⟨rfl, rfl, rfl, rfl⟩
  newcolor := fun _ h => Or.inl h
  stack := ⟨[], by simp⟩
  time_mono := le_refl _
  c_mono := le_refl _
  new_comp := by
    intro v hw hf
    rw [hf.1] at hw
    exact absurd hw (by decide)

theorem Ext.white_of_white {st st1 : tarjan_state} (h : Ext st st1) (v : Nat)
    (hv : st1.color v = white_color) : st.color v = white_color := by
  by_contra hn
  rw [(h.frame v hn).1] at hv
  exact hn hv

theorem Ext.mem_stack {st st1 : tarjan_state} (h : Ext st st1) (v : Nat)
    (hv : v ∈ st.s) : v ∈ st1.s := by
  obtain ⟨seg, hs, _⟩ := h.stack
  rw [hs]; simp [hv]

theorem Ext.finished_mono {st st1 : tarjan_state} (h : Ext st st1) (v : Nat)
    (hv : finished st v) : finished st1 v := by
  have hnw : st.color v ≠ white_color := by rw [hv.1]; decide
  refine ⟨by rw [(h.frame v hnw).1]; exact hv.1, ?_⟩
  obtain ⟨seg, hs, hseg⟩ := h.stack
  rw [hs]
  intro hmem
  rcases List.mem_append.1 hmem with hm | hm
  · exact hnw (hseg v hm).1
  · exact hv.2 hm

theorem Ext.trans {st st1 st2 : tarjan_state} (h1 : Ext st st1) (h2 : Ext st1 st2) :
    Ext st st2 where
  frame := by
    intro v hv
    obtain ⟨a1, a2, a3, a4⟩ := h1.frame v hv
    have hv1 : st1.color v ≠ white_color := by rw [a1]; exact hv
    obtain ⟨b1, b2, b3, b4⟩ := h2.frame v hv1
    exact ⟨b1.trans a1, b2.trans a2, b3.trans a3, b4.trans a4⟩
  newcolor := by
    intro v hv
    rcases h1.newcolor v hv with hw | hb
    · exact h2.newcolor v hw
    · right
      rw [(h2.frame v (by rw [hb]; decide)).1]; exact hb
  stack := by
    obtain ⟨seg1, hs1, hseg1⟩ := h1.stack
    obtain ⟨seg2, hs2, hseg2⟩ := h2.stack
    refine ⟨seg2 ++ seg1, by rw [hs2, hs1, List.append_assoc], ?_⟩
    intro y hy
    rcases List.mem_append.1 hy with hy | hy
    · exact ⟨h1.white_of_white y (hseg2 y hy).1, (hseg2 y hy).2⟩
    · refine ⟨(hseg1 y hy).1, ?_⟩
      rw [(h2.frame y (by rw [(hseg1 y hy).2]; decide)).1]
      exact (hseg1 y hy).2
  time_mono := le_trans h1.time_mono h2.time_mono
  c_mono := le_trans h1.c_mono h2.c_mono
  new_comp := by
    intro v hv hf
    rcases h1.newcolor v hv with hw | hb
    · exact le_trans h1.c_mono (h2.new_comp v hw hf)
    · have hfr := h2.frame v (by rw [hb]; decide)
      by_cases hm : v ∈ st1.s
      · exact absurd (h2.mem_stack v hm) hf.2
      · have := h1.new_comp v hv ⟨hb, hm⟩
        rw [hfr.2.1]; exact this

/-! ## Discovering a vertex -/

theorem discover_color_self (u : Nat) (st : tarjan_state) :
    (discover_vertex u st).color u = gray_color := by simp [discover_vertex]

theorem discover_other (u : Nat) (st : tarjan_state) (v : Nat) (h : v ≠ u) :
    (discover_vertex u st).color v = st.color v ∧
    (discover_vertex u st).comp v = st.comp v ∧
    (discover_vertex u st).root v = st.root v ∧
    (discover_vertex u st).discover_time v = st.discover_time v := by
  simp [discover_vertex, put_apply, h]

theorem not_mem_stack_of_white {g : similarity_graph} {st : tarjan_state} (hi : Inv g st)
    {u : Nat} (hw : st.color u = white_color) : u ∉ st.s :=
  fun h => hi.stack_nonwhite u h hw

theorem finished_discover {st : tarjan_state}
    {u : Nat} (hw : st.color u = white_color) (v : Nat) :
    finished (discover_vertex u st) v ↔ finished st v := by
  unfold finished
  by_cases hv : v = u
  · subst hv
    simp [discover_vertex, hw]
  · rw [(discover_other u st v hv).1]
    simp [discover_vertex, hv]

theorem discover_inv {g : similarity_graph} {st : tarjan_state} (hi : Inv g st) {u : Nat}
    (hw : st.color u = white_color) (hu : u < num_vertices g)
    (hreach : ∀ x, st.color x = gray_color → reachable g x u) :
    Inv g (discover_vertex u st) := by
  have hus : u ∉ st.s := not_mem_stack_of_white hi hw
  have hne : ∀ v ∈ st.s, v ≠ u := fun v hv h => hus (h ▸ hv)
  have hs : (discover_vertex u st).s = u :: st.s := rfl
  have htime : (discover_vertex u st).dfs_time = st.dfs_time + 1 := rfl
  have hc : (discover_vertex u st).c = st.c := rfl
  have hdtu : (discover_vertex u st).discover_time u = st.dfs_time := by
    simp [discover_vertex]
  constructor
  · intro v hv
    by_cases h : v = u
    · rw [h]; exact hu
    · rw [(discover_other u st v h).1] at hv
      exact hi.lt_of_nonwhite v hv
  · intro v hv
    rw [hs]
    by_cases h : v = u
    · simp [h]
    · rw [(discover_other u st v h).1] at hv
      exact List.mem_cons_of_mem _ (hi.gray_stack v hv)
  · intro v hv
    by_cases h : v = u
    · rw [h, discover_color_self]; decide
    · rw [(discover_other u st v h).1]
      rw [hs] at hv
      exact hi.stack_nonwhite v ((List.mem_cons.1 hv).resolve_left h)
  · intro v hv
    by_cases h : v = u
    · rw [h]; simp [discover_vertex]
    · rw [(discover_other u st v h).2.1]
      rw [hs] at hv
      exact hi.stack_comp v ((List.mem_cons.1 hv).resolve_left h)
  · intro v hv
    have hv0 := (finished_discover hw v).1 hv
    have h : v ≠ u := by
      intro h; rw [h] at hv0; rw [hv0.1] at hw; exact absurd hw (by decide)
    rw [(discover_other u st v h).2.1, hc]
    exact hi.done_comp v hv0
  · rw [hs, List.pairwise_cons]
    constructor
    · intro b hb
      rw [hdtu, (discover_other u st b (hne b hb)).2.2.2]
      exact hi.stack_time b hb
    · refine hi.stack_sorted.imp_of_mem ?_
      intro a b ha hb hab
      rw [(discover_other u st a (hne a ha)).2.2.2, (discover_other u st b (hne b hb)).2.2.2]
      exact hab
  · intro v hv
    rw [htime]
    by_cases h : v = u
    · rw [h, hdtu]; omega
    · rw [(discover_other u st v h).2.2.2]
      rw [hs] at hv
      have := hi.stack_time v ((List.mem_cons.1 hv).resolve_left h)
      omega
  · rw [hc, hs, htime]
    have := hi.count
    simp only [List.length_cons]
    omega
  · rw [htime]
    have h1 := white_set_discover g st u hu hw
    have h2 := hi.time
    omega
  · intro x y hx hxy
    have hxu : x ≠ u := by
      intro h; rw [h, discover_color_self] at hx; exact absurd hx (by decide)
    rw [(discover_other u st x hxu).1] at hx
    have hy := hi.no_black_white x y hx hxy
    have hyu : y ≠ u := by
      intro h; rw [h] at hy; exact hy hw
    rw [(discover_other u st y hyu).1]
    exact hy
  · intro x y hx hy hle
    by_cases hyu : y = u
    · rw [hyu]
      by_cases hxu : x = u
      · rw [hxu]; exact Relation.ReflTransGen.refl
      · rw [(discover_other u st x hxu).1] at hx
        exact hreach x hx
    · rw [hs] at hy
      have hys := (List.mem_cons.1 hy).resolve_left hyu
      rw [(discover_other u st y hyu).2.2.2] at hle
      have hty := hi.stack_time y hys
      by_cases hxu : x = u
      · rw [hxu, hdtu] at hle; omega
      · rw [(discover_other u st x hxu).1] at hx
        rw [(discover_other u st x hxu).2.2.2] at hle
        exact hi.gray_reach x y hx hys hle
  · intro y hy
    by_cases hyu : y = u
    · exact ⟨u, discover_color_self u st, by rw [hyu], by rw [hyu]; exact Relation.ReflTransGen.refl⟩
    · rw [hs] at hy
      have hys := (List.mem_cons.1 hy).resolve_left hyu
      obtain ⟨x, hx, hle, hr⟩ := hi.stack_gray y hys
      have hxu : x ≠ u := by
        intro h; rw [h, hw] at hx; exact absurd hx (by decide)
      refine ⟨x, ?_, ?_, hr⟩
      · rw [(discover_other u st x hxu).1]; exact hx
      · rw [(discover_other u st x hxu).2.2.2, (discover_other u st y hyu).2.2.2]; exact hle
  · intro v w hv hvw
    rw [finished_discover hw] at hv ⊢
    exact hi.done_closed v w hv hvw
  · intro v w hv hw1
    rw [finished_discover hw] at hv hw1
    have hvu : v ≠ u := by
      intro h; rw [h] at hv; rw [hv.1] at hw; exact absurd hw (by decide)
    have hwu : w ≠ u := by
      intro h; rw [h] at hw1; rw [hw1.1] at hw; exact absurd hw (by decide)
    rw [(discover_other u st v hvu).2.1, (discover_other u st w hwu).2.1]
    exact hi.done_scc v w hv hw1
  · intro k hk
    rw [hc] at hk
    obtain ⟨v, hv, hk1⟩ := hi.comp_used k hk
    have hvu : v ≠ u := by
      intro h; rw [h] at hv; rw [hv.1] at hw; exact absurd hw (by decide)
    exact ⟨v, (finished_discover hw v).2 hv, by rw [(discover_other u st v hvu).2.1]; exact hk1⟩
  · intro v hv
    by_cases h : v = u
    · rw [h]; simp [discover_vertex]
    · rw [(discover_other u st v h).1] at hv
      rw [(discover_other u st v h).2.2.1]
      exact hi.gray_root v hv
  · intro w hw1
    by_cases h : w = u
    · rw [h]
      have : (discover_vertex u st).root u = u := by simp [discover_vertex]
      rw [this, hs]
      exact ⟨by simp, le_refl _, Relation.ReflTransGen.refl⟩
    · rw [hs] at hw1
      have hws := (List.mem_cons.1 hw1).resolve_left h
      obtain ⟨h1, h2, h3⟩ := hi.stack_root w hws
      rw [(discover_other u st w h).2.2.1, hs,
        (discover_other u st _ (hne _ h1)).2.2.2, (discover_other u st w h).2.2.2]
      exact ⟨List.mem_cons_of_mem _ h1, h2, h3⟩

/-! ## Finishing a vertex -/

namespace FinishCtx

variable {g : similarity_graph} {u : Nat} {st sb : tarjan_state}

theorem color_u (h : FinishCtx g u st sb) : sb.color u = gray_color := by
  have := h.ext.frame u (by rw [discover_color_self]; decide)
  rw [this.1, discover_color_self]

theorem root_u (h : FinishCtx g u st sb) : sb.root u = u :=
  h.inv.gray_root u h.color_u

theorem dt_u (h : FinishCtx g u st sb) : sb.discover_time u = st.dfs_time := by
  have := h.ext.frame u (by rw [discover_color_self]; decide)
  rw [this.2.2.2]; simp [discover_vertex]

theorem c_le (h : FinishCtx g u st sb) : st.c ≤ sb.c := h.ext.c_mono

theorem old (h : FinishCtx g u st sb) (v : Nat) (hv : st.color v ≠ white_color) :
    v ≠ u ∧ sb.color v = st.color v ∧ sb.comp v = st.comp v ∧ sb.root v = st.root v ∧
      sb.discover_time v = st.discover_time v := by
  have hvu : v ≠ u := fun e => hv (e ▸ h.white)
  have h1 := discover_other u st v hvu
  have h2 := h.ext.frame v (by rw [h1.1]; exact hv)
  exact ⟨hvu, h2.1.trans h1.1, h2.2.1.trans h1.2.1, h2.2.2.1.trans h1.2.2.1,
    h2.2.2.2.trans h1.2.2.2⟩

theorem stack (h : FinishCtx g u st sb) :
    ∃ seg, sb.s = seg ++ u :: st.s ∧ u ∉ seg ∧
      ∀ y ∈ seg, st.color y = white_color ∧ y ≠ u ∧ sb.color y = black_color := by
  obtain ⟨seg, hs, hseg⟩ := h.ext.stack
  have hne : ∀ y ∈ seg, y ≠ u := by
    intro y hy e
    have := (hseg y hy).1
    rw [e, discover_color_self] at this
    exact absurd this (by decide)
  refine ⟨seg, hs, fun hu => hne u hu rfl, ?_⟩
  intro y hy
  refine ⟨?_, hne y hy, (hseg y hy).2⟩
  rw [← (discover_other u st y (hne y hy)).1]
  exact (hseg y hy).1

theorem old_stack (h : FinishCtx g u st sb) (z : Nat) (hz : z ∈ st.s) :
    z ≠ u ∧ z ∈ sb.s ∧ sb.discover_time z < sb.discover_time u := by
  have hnw := h.inv0.stack_nonwhite z hz
  have ho := h.old z hnw
  refine ⟨ho.1, ?_, ?_⟩
  · obtain ⟨seg, hs, _⟩ := h.stack
    rw [hs]; simp [hz]
  · rw [ho.2.2.2.2, h.dt_u]
    exact h.inv0.stack_time z hz

theorem dt_seg (h : FinishCtx g u st sb) {seg : List Nat} (hs : sb.s = seg ++ u :: st.s)
    (y : Nat) (hy : y ∈ seg) : sb.discover_time u < sb.discover_time y := by
  have := h.inv.stack_sorted
  rw [hs, List.pairwise_append] at this
  exact this.2.2 y hy u (by simp)

theorem c_lt_max (h : FinishCtx g u st sb) : sb.c < comp_max := by
  have h1 := h.inv.count
  have h2 := h.inv.time
  have h3 := h.hmax
  obtain ⟨seg, hs, _⟩ := h.stack
  rw [hs] at h1
  simp only [List.length_append, List.length_cons] at h1
  omega

theorem comp_max_iff (h : FinishCtx g u st sb) (w : Nat) (hw : sb.color w ≠ white_color) :
    sb.comp w = comp_max ↔ w ∈ sb.s := by
  constructor
  · intro hc
    by_contra hn
    have hb : sb.color w = black_color := by
      cases hcol : sb.color w with
      | white_color => exact absurd hcol hw
      | gray_color => exact absurd (h.inv.gray_stack w hcol) hn
      | black_color => rfl
    have := h.inv.done_comp w ⟨hb, hn⟩
    have := h.c_lt_max
    omega
  · exact h.inv.stack_comp w

/-- The root map computed by the first loop of `finish_vertex`. -/
theorem roots (h : FinishCtx g u st sb) :
    (∀ w, w ≠ u → finish_roots sb u (out_edges g u) w = sb.root w) ∧
    (finish_roots sb u (out_edges g u) u = u ∨
      ∃ w, edge g u w ∧ w ∈ sb.s ∧ w ≠ u ∧
        finish_roots sb u (out_edges g u) u = sb.root w) ∧
    sb.discover_time (finish_roots sb u (out_edges g u) u) ≤ sb.discover_time u ∧
    (∀ w, edge g u w → w ∈ sb.s →
      sb.discover_time (finish_roots sb u (out_edges g u) u) ≤
        sb.discover_time (sb.root w)) := by
  obtain ⟨h1, h2, h3, h4⟩ := finish_roots_spec u (out_edges g u) sb
  rw [h.root_u] at h2 h3
  refine ⟨h1, ?_, h3, ?_⟩
  · rcases h2 with h2 | ⟨w, hw, hc, hwu, hR⟩
    · exact Or.inl h2
    · exact Or.inr ⟨w, hw, (h.comp_max_iff w (h.succ w hw)).1 hc, hwu, hR⟩
  · intro w hw hws
    by_cases hwu : w = u
    · rw [hwu, h.root_u]; exact h3
    · exact h4 w hw (h.inv.stack_comp w hws) hwu

/-- Every edge from the part of the stack pushed since `u` was discovered to the older
part goes at or above the root computed for `u`. -/
theorem xedge (h : FinishCtx g u st sb) (y : Nat) (hy : y ∈ sb.s)
    (hyw : st.color y = white_color) (z : Nat) (hz : z ∈ st.s) (hyz : edge g y z) :
    sb.discover_time (finish_roots sb u (out_edges g u) u) ≤ sb.discover_time z := by
  obtain ⟨_, _, h3, h4⟩ := h.roots
  have hzs := (h.old_stack z hz).2.1
  by_cases hyu : y = u
  · rw [hyu] at hyz
    exact le_trans (h4 z hyz hzs) (h.inv.stack_root z hzs).2.1
  · obtain ⟨w, huw, hws, hle⟩ := h.xloop y hy hyu hyw z hz hyz
    exact le_trans (h4 w huw hws) hle

end FinishCtx

theorem stack_dt_inj {g : similarity_graph} {st : tarjan_state} (hi : Inv g st) {a b : Nat}
    (ha : a ∈ st.s) (hb : b ∈ st.s) (hab : st.discover_time a = st.discover_time b) :
    a = b := by
  by_contra hne
  have hp : st.s.Pairwise (fun a b => st.discover_time a ≠ st.discover_time b) :=
    hi.stack_sorted.imp (fun h => (Nat.ne_of_lt h).symm)
  exact hp.forall (fun _ _ h => h.symm) ha hb hne hab

theorem color_cases (c : default_color_type) :
    c = white_color ∨ c = gray_color ∨ c = black_color := by
  cases c <;> simp

@[simp]
theorem finish_mark_color (g : similarity_graph) (u : Nat) (sb : tarjan_state) :
    (finish_mark g u sb).color = put sb.color u black_color := rfl
@[simp]
theorem finish_mark_root (g : similarity_graph) (u : Nat) (sb : tarjan_state) :
    (finish_mark g u sb).root = finish_roots sb u (out_edges g u) := rfl
@[simp]
theorem finish_mark_comp (g : similarity_graph) (u : Nat) (sb : tarjan_state) :
    (finish_mark g u sb).comp = sb.comp := rfl
@[simp]
theorem finish_mark_discover_time (g : similarity_graph) (u : Nat) (sb : tarjan_state) :
    (finish_mark g u sb).discover_time = sb.discover_time := rfl
@[simp]
theorem finish_mark_dfs_time (g : similarity_graph) (u : Nat) (sb : tarjan_state) :
    (finish_mark g u sb).dfs_time = sb.dfs_time := rfl
@[simp]
theorem finish_mark_c (g : similarity_graph) (u : Nat) (sb : tarjan_state) :
    (finish_mark g u sb).c = sb.c := rfl
@[simp]
theorem finish_mark_s (g : similarity_graph) (u : Nat) (sb : tarjan_state) :
    (finish_mark g u sb).s = sb.s := rfl

theorem finish_vertex_nonroot (g : similarity_graph) (u : Nat) (sb : tarjan_state)
    (hr : finish_roots sb u (out_edges g u) u ≠ u) :
    finish_vertex g u sb =
      (finish_mark g u sb) := by
  show (if finish_roots sb u (out_edges g u) u = u then _ else finish_mark g u sb) = _
  rw [if_neg hr]

theorem finish_vertex_root (g : similarity_graph) (u : Nat) (sb : tarjan_state)
    (hr : finish_roots sb u (out_edges g u) u = u) :
    finish_vertex g u sb =
      { pop_component u sb.s (finish_mark g u sb) with
        c := (pop_component u sb.s (finish_mark g u sb)).c + 1 } := by
  show (if finish_roots sb u (out_edges g u) u = u then _ else finish_mark g u sb) = _
  rw [if_pos hr]
  rfl

namespace FinishCtx

variable {g : similarity_graph} {u : Nat} {st sb : tarjan_state}

/-- When `u` is not its own root, its root is on the old stack, strictly older than
`u`, and reachable from `u`. -/
theorem nonroot_root (h : FinishCtx g u st sb)
    (hr : finish_roots sb u (out_edges g u) u ≠ u) :
    finish_roots sb u (out_edges g u) u ∈ sb.s ∧
    sb.discover_time (finish_roots sb u (out_edges g u) u) < sb.discover_time u ∧
    reachable g u (finish_roots sb u (out_edges g u) u) := by
  obtain ⟨_, h2, h3, _⟩ := h.roots
  rcases h2 with h2 | ⟨w, huw, hws, _, hR⟩
  · exact absurd h2 hr
  · obtain ⟨r1, _, r3⟩ := h.inv.stack_root w hws
    have hus : u ∈ sb.s := h.inv.gray_stack u h.color_u
    rw [hR] at hr h3 ⊢
    refine ⟨r1, ?_, Relation.ReflTransGen.head huw r3⟩
    rcases Nat.lt_or_ge (sb.discover_time (sb.root w)) (sb.discover_time u) with hlt | hge
    · exact hlt
    · exact absurd (stack_dt_inj h.inv r1 hus (le_antisymm h3 hge)) hr

theorem nonroot_inv (h : FinishCtx g u st sb)
    (hr : finish_roots sb u (out_edges g u) u ≠ u) :
    Inv g (finish_mark g u sb) := by
  obtain ⟨hR1, _, _, _⟩ := h.roots
  obtain ⟨hrs, hrlt, hrreach⟩ := h.nonroot_root hr
  have hus : u ∈ sb.s := h.inv.gray_stack u h.color_u
  have hcol : ∀ v, v ≠ u → put sb.color u black_color v = sb.color v :=
    fun v hv => put_other _ _ _ _ hv
  have hfin : ∀ v, finished (finish_mark g u sb) v ↔ finished sb v := by
    intro v
    unfold finished
    by_cases hv : v = u
    · subst hv; simp [hus]
    · simp only [finish_mark_color, finish_mark_s, hcol v hv]
  constructor
  · intro v hv
    by_cases e : v = u
    · rw [e]; exact h.inv.lt_of_nonwhite u (by rw [h.color_u]; decide)
    · simp only [finish_mark_color, hcol v e] at hv
      exact h.inv.lt_of_nonwhite v hv
  · intro v hv
    by_cases e : v = u
    · rw [e]; exact hus
    · simp only [finish_mark_color, hcol v e] at hv
      exact h.inv.gray_stack v hv
  · intro v hv
    by_cases e : v = u
    · simp only [finish_mark_color, e, put_same]; decide
    · simp only [finish_mark_color, hcol v e]
      exact h.inv.stack_nonwhite v hv
  · exact h.inv.stack_comp
  · intro v hv
    exact h.inv.done_comp v ((hfin v).1 hv)
  · exact h.inv.stack_sorted
  · exact h.inv.stack_time
  · exact h.inv.count
  · have := white_set_congr g sb (finish_mark g u sb) (by
      intro v
      by_cases e : v = u
      · simp only [finish_mark_color, e, put_same, h.color_u]; decide
      · simp only [finish_mark_color, hcol v e])
    simp only [this]
    exact h.inv.time
  · intro x y hx hxy
    have hy : sb.color y ≠ white_color := by
      by_cases e : x = u
      · rw [e] at hxy; exact h.succ y hxy
      · simp only [finish_mark_color, hcol x e] at hx
        exact h.inv.no_black_white x y hx hxy
    by_cases e : y = u
    · simp only [finish_mark_color, e, put_same]; decide
    · simp only [finish_mark_color, hcol y e]; exact hy
  · intro x y hx hy hle
    have e : x ≠ u := by
      intro e; simp only [finish_mark_color, e, put_same] at hx; exact absurd hx (by decide)
    simp only [finish_mark_color, hcol x e] at hx
    exact h.inv.gray_reach x y hx hy hle
  · intro y hy
    obtain ⟨x, hx, hle, hreach⟩ := h.inv.stack_gray y hy
    by_cases e : x = u
    · obtain ⟨x1, hx1, hle1, hreach1⟩ := h.inv.stack_gray _ hrs
      have e1 : x1 ≠ u := by
        intro e1; rw [e1] at hle1; omega
      refine ⟨x1, by simp only [finish_mark_color, hcol x1 e1]; exact hx1, ?_, ?_⟩
      · rw [e] at hle
        show sb.discover_time x1 ≤ sb.discover_time y
        omega
      · rw [e] at hreach
        exact hreach.trans (hrreach.trans hreach1)
    · exact ⟨x, by simp only [finish_mark_color, hcol x e]; exact hx, hle, hreach⟩
  · intro v w hv hvw
    rw [hfin] at hv ⊢
    exact h.inv.done_closed v w hv hvw
  · intro v w hv hw
    rw [hfin] at hv hw
    exact h.inv.done_scc v w hv hw
  · intro k hk
    obtain ⟨v, hv, hk1⟩ := h.inv.comp_used k hk
    exact ⟨v, (hfin v).2 hv, hk1⟩
  · intro v hv
    have e : v ≠ u := by
      intro e; simp only [finish_mark_color, e, put_same] at hv; exact absurd hv (by decide)
    simp only [finish_mark_color, hcol v e] at hv
    show finish_roots sb u (out_edges g u) v = v
    rw [hR1 v e]
    exact h.inv.gray_root v hv
  · intro w hw
    show finish_roots sb u (out_edges g u) w ∈ sb.s ∧
      sb.discover_time (finish_roots sb u (out_edges g u) w) ≤ sb.discover_time w ∧
      reachable g w (finish_roots sb u (out_edges g u) w)
    by_cases e : w = u
    · rw [e]
      exact ⟨hrs, le_of_lt hrlt, hrreach⟩
    · rw [hR1 w e]
      exact h.inv.stack_root w hw

theorem nonroot_ext (h : FinishCtx g u st sb) :
    Ext st (finish_mark g u sb) := by
  obtain ⟨hR1, _, _, _⟩ := h.roots
  have hus : u ∈ sb.s := h.inv.gray_stack u h.color_u
  have hcol : ∀ v, v ≠ u → put sb.color u black_color v = sb.color v :=
    fun v hv => put_other _ _ _ _ hv
  constructor
  · intro v hv
    obtain ⟨e, o1, o2, o3, o4⟩ := h.old v hv
    exact ⟨by simp only [finish_mark_color, hcol v e]; exact o1, o2,
      by simp only [finish_mark_root, hR1 v e]; exact o3, o4⟩
  · intro v hv
    by_cases e : v = u
    · right; simp only [finish_mark_color, e, put_same]
    · simp only [finish_mark_color, hcol v e]
      exact h.ext.newcolor v (by rw [(discover_other u st v e).1]; exact hv)
  · obtain ⟨seg, hs, _, hseg⟩ := h.stack
    refine ⟨seg ++ [u], by simp [hs], ?_⟩
    intro y hy
    rcases List.mem_append.1 hy with hy | hy
    · obtain ⟨a, b, c⟩ := hseg y hy
      exact ⟨a, by simp only [finish_mark_color, hcol y b]; exact c⟩
    · rw [List.mem_singleton.1 hy]
      exact ⟨h.white, by simp only [finish_mark_color, put_same]⟩
  · have := h.ext.time_mono
    simp only [discover_vertex] at this
    show st.dfs_time ≤ sb.dfs_time
    omega
  · exact h.c_le
  · intro v hv hf
    have e : v ≠ u := by
      intro e; rw [e] at hf; exact hf.2 hus
    have hf1 : finished sb v := ⟨by have := hf.1; simp only [finish_mark_color, hcol v e] at this; exact this, hf.2⟩
    exact h.ext.new_comp v (by rw [(discover_other u st v e).1]; exact hv) hf1

theorem nonroot_xedge (h : FinishCtx g u st sb) :
    XEdge g u st (finish_mark g u sb) := by
  intro y hy hyw
  exact ⟨h.inv.gray_stack u h.color_u, fun z hz hyz => h.xedge y hy hyw z hz hyz⟩

end FinishCtx

theorem finished_reachable {g : similarity_graph} {st : tarjan_state} (hi : Inv g st)
    {v w : Nat} (hv : finished st v) (hr : reachable g v w) : finished st w := by
  induction hr with
  | refl => exact hv
  | tail _ hbc ih => exact hi.done_closed _ _ ih hbc

namespace FinishCtx

variable {g : similarity_graph} {u : Nat} {st sb : tarjan_state}

theorem popped (h : FinishCtx g u st sb) (hr : finish_roots sb u (out_edges g u) u = u) :
    ∃ seg, Popped u st sb seg (finish_vertex g u sb) := by
  obtain ⟨seg, hs, hu, hseg⟩ := h.stack
  obtain ⟨hR1, _, _, _⟩ := h.roots
  refine ⟨seg, ?_⟩
  rw [finish_vertex_root g u sb hr, hs]
  obtain ⟨p1, p2, p3, p4, p5, p6, p7⟩ := pop_component_spec u seg st.s hu (finish_mark g u sb)
  refine ⟨hs, hu, hseg, p1, ?_, p3, p4, p5, p6, ?_⟩
  · show (pop_component u (seg ++ u :: st.s) (finish_mark g u sb)).c + 1 = sb.c + 1
    rw [p2]; rfl
  · intro w
    show (pop_component u (seg ++ u :: st.s) (finish_mark g u sb)).root w = _
    rw [p7 w]
    by_cases hw : w ∈ seg ∨ w = u
    · simp only [hw, if_true]
    · simp only [hw, if_false]
      have : w ≠ u := fun e => hw (Or.inr e)
      rw [finish_mark_root, hR1 w this]

end FinishCtx

namespace Popped

variable {g : similarity_graph} {u : Nat} {st sb sp : tarjan_state} {seg : List Nat}

theorem color_other (p : Popped u st sb seg sp) (v : Nat) (hv : v ≠ u) :
    sp.color v = sb.color v := by
  rw [p.e_color, put_other _ _ _ _ hv]

theorem black_u (p : Popped u st sb seg sp) : sp.color u = black_color := by
  rw [p.e_color, put_same]

theorem mem_sb (p : Popped u st sb seg sp) (v : Nat) :
    v ∈ sb.s ↔ (v ∈ seg ∨ v = u) ∨ v ∈ st.s := by
  rw [p.hs]; simp [or_assoc]

theorem not_old (p : Popped u st sb seg sp) (h : FinishCtx g u st sb) (v : Nat)
    (hv : v ∈ seg ∨ v = u) : v ∉ st.s ∧ st.color v = white_color ∧ v ∈ sb.s := by
  have hw : st.color v = white_color := by
    rcases hv with hv | hv
    · exact (p.hseg v hv).1
    · rw [hv]; exact h.white
  exact ⟨fun hm => h.inv0.stack_nonwhite v hm hw, hw, (p.mem_sb v).2 (Or.inl hv)⟩

theorem black_seg (p : Popped u st sb seg sp) (v : Nat)
    (hv : v ∈ seg ∨ v = u) : sp.color v = black_color := by
  rcases hv with hv | hv
  · rw [p.color_other v (p.hseg v hv).2.1]; exact (p.hseg v hv).2.2
  · rw [hv]; exact p.black_u

/-- No edge leaves the popped vertices towards the rest of the stack. -/
theorem no_exit (p : Popped u st sb seg sp) (h : FinishCtx g u st sb)
    (hr : finish_roots sb u (out_edges g u) u = u) (y : Nat) (hy : y ∈ seg ∨ y = u)
    (z : Nat) (hz : z ∈ st.s) : ¬ edge g y z := by
  intro hyz
  obtain ⟨_, hw, hys⟩ := p.not_old h y hy
  have h1 := h.xedge y hys hw z hz hyz
  rw [hr] at h1
  have h2 := (h.old_stack z hz).2.2
  omega

/-- The popped vertices and the finished ones are closed under the edges. -/
theorem closed (p : Popped u st sb seg sp) (h : FinishCtx g u st sb)
    (hr : finish_roots sb u (out_edges g u) u = u) (v w : Nat)
    (hv : (v ∈ seg ∨ v = u) ∨ finished sb v) (hvw : edge g v w) :
    (w ∈ seg ∨ w = u) ∨ finished sb w := by
  rcases hv with hv | hv
  · have hnw : sb.color w ≠ white_color := by
      rcases hv with hv1 | hv1
      · exact h.inv.no_black_white v w (p.hseg v hv1).2.2 hvw
      · rw [hv1] at hvw; exact h.succ w hvw
    by_cases hws : w ∈ sb.s
    · rcases (p.mem_sb w).1 hws with hw1 | hw1
      · exact Or.inl hw1
      · exact absurd hvw (p.no_exit h hr v hv w hw1)
    · right
      refine ⟨?_, hws⟩
      rcases color_cases (sb.color w) with hc | hc | hc
      · exact absurd hc hnw
      · exact absurd (h.inv.gray_stack w hc) hws
      · exact hc
  · exact Or.inr (h.inv.done_closed v w hv hvw)

theorem closed_reachable (p : Popped u st sb seg sp) (h : FinishCtx g u st sb)
    (hr : finish_roots sb u (out_edges g u) u = u) (v w : Nat)
    (hv : (v ∈ seg ∨ v = u) ∨ finished sb v) (hvw : reachable g v w) :
    (w ∈ seg ∨ w = u) ∨ finished sb w := by
  induction hvw with
  | refl => exact hv
  | tail _ hbc ih => exact p.closed h hr _ _ ih hbc

theorem reach_from_u (p : Popped u st sb seg sp) (h : FinishCtx g u st sb) (y : Nat)
    (hy : y ∈ seg ∨ y = u) : reachable g u y := by
  rcases hy with hy | hy
  · exact h.inv.gray_reach u y h.color_u ((p.mem_sb y).2 (Or.inl (Or.inl hy)))
      (le_of_lt (h.dt_seg p.hs y hy))
  · rw [hy]; exact Relation.ReflTransGen.refl

theorem reach_to_u (p : Popped u st sb seg sp) (h : FinishCtx g u st sb)
    (hr : finish_roots sb u (out_edges g u) u = u) (y : Nat)
    (hy : y ∈ seg ∨ y = u) : reachable g y u := by
  obtain ⟨x, hx, _, hreach⟩ := h.inv.stack_gray y (p.not_old h y hy).2.2
  rcases p.closed_reachable h hr y x (Or.inl hy) hreach with hx1 | hx1
  · rcases hx1 with hx1 | hx1
    · have := (p.hseg x hx1).2.2
      rw [hx] at this; exact absurd this (by decide)
    · rw [hx1] at hreach; exact hreach
  · have := hx1.1
    rw [hx] at this; exact absurd this (by decide)

theorem finished_iff (p : Popped u st sb seg sp) (h : FinishCtx g u st sb) (v : Nat) :
    finished sp v ↔ ((v ∈ seg ∨ v = u) ∨ finished sb v) := by
  constructor
  · rintro ⟨hb, hn⟩
    rw [p.e_s] at hn
    by_cases e : v = u
    · exact Or.inl (Or.inr e)
    · rw [p.color_other v e] at hb
      by_cases hvs : v ∈ sb.s
      · rcases (p.mem_sb v).1 hvs with h1 | h1
        · exact Or.inl h1
        · exact absurd h1 hn
      · exact Or.inr ⟨hb, hvs⟩
  · rintro (hv | hv)
    · exact ⟨p.black_seg v hv, by rw [p.e_s]; exact (p.not_old h v hv).1⟩
    · have e : v ≠ u := by
        intro e; have := hv.1; rw [e, h.color_u] at this; exact absurd this (by decide)
      refine ⟨by rw [p.color_other v e]; exact hv.1, ?_⟩
      rw [p.e_s]
      exact fun hm => hv.2 ((p.mem_sb v).2 (Or.inr hm))

theorem comp_seg (p : Popped u st sb seg sp) (v : Nat) (hv : v ∈ seg ∨ v = u) :
    sp.comp v = sb.c := by
  rw [p.e_comp v, if_pos hv]

theorem not_seg_of_finished (p : Popped u st sb seg sp) (v : Nat) (hv : finished sb v) :
    ¬ (v ∈ seg ∨ v = u) :=
  fun hm => hv.2 ((p.mem_sb v).2 (Or.inl hm))

theorem comp_finished (p : Popped u st sb seg sp) (v : Nat) (hv : finished sb v) :
    sp.comp v = sb.comp v := by
  rw [p.e_comp v, if_neg (p.not_seg_of_finished v hv)]

theorem old_not_seg (p : Popped u st sb seg sp) (h : FinishCtx g u st sb) (v : Nat)
    (hv : v ∈ st.s) : ¬ (v ∈ seg ∨ v = u) :=
  fun hm => (p.not_old h v hm).1 hv

end Popped

namespace Popped

variable {g : similarity_graph} {u : Nat} {st sb sp : tarjan_state} {seg : List Nat}

theorem root_inv (p : Popped u st sb seg sp) (h : FinishCtx g u st sb)
    (hr : finish_roots sb u (out_edges g u) u = u) : Inv g sp := by
  have hus : u ∈ sb.s := h.inv.gray_stack u h.color_u
  have hsub : ∀ v, v ∈ st.s → v ∈ sb.s := fun v hv => (p.mem_sb v).2 (Or.inr hv)
  constructor
  · intro v hv
    by_cases e : v = u
    · rw [e]; exact h.inv.lt_of_nonwhite u (by rw [h.color_u]; decide)
    · rw [p.color_other v e] at hv
      exact h.inv.lt_of_nonwhite v hv
  · intro v hv
    have e : v ≠ u := by
      intro e; rw [e, p.black_u] at hv; exact absurd hv (by decide)
    rw [p.color_other v e] at hv
    rw [p.e_s]
    rcases (p.mem_sb v).1 (h.inv.gray_stack v hv) with h1 | h1
    · have := p.black_seg v h1
      rw [p.color_other v e, hv] at this; exact absurd this (by decide)
    · exact h1
  · intro v hv
    rw [p.e_s] at hv
    rw [p.color_other v (h.old_stack v hv).1]
    exact h.inv.stack_nonwhite v (hsub v hv)
  · intro v hv
    rw [p.e_s] at hv
    rw [p.e_comp v, if_neg (p.old_not_seg h v hv)]
    exact h.inv.stack_comp v (hsub v hv)
  · intro v hv
    rw [p.e_c]
    rcases (p.finished_iff h v).1 hv with h1 | h1
    · rw [p.comp_seg v h1]; omega
    · rw [p.comp_finished v h1]
      have := h.inv.done_comp v h1
      omega
  · rw [p.e_s, p.e_dt]
    have := h.inv.stack_sorted
    rw [p.hs, List.pairwise_append] at this
    exact (List.pairwise_cons.1 this.2.1).2
  · intro v hv
    rw [p.e_s] at hv
    rw [p.e_dt, p.e_time]
    exact h.inv.stack_time v (hsub v hv)
  · rw [p.e_s, p.e_c, p.e_time]
    have := h.inv.count
    rw [p.hs] at this
    simp only [List.length_append, List.length_cons] at this
    omega
  · have := white_set_congr g sb sp (by
      intro v
      by_cases e : v = u
      · rw [e, p.black_u, h.color_u]; decide
      · rw [p.color_other v e])
    rw [this, p.e_time]
    exact h.inv.time
  · intro x y hx hxy
    have hy : sb.color y ≠ white_color := by
      by_cases e : x = u
      · rw [e] at hxy; exact h.succ y hxy
      · rw [p.color_other x e] at hx
        exact h.inv.no_black_white x y hx hxy
    by_cases e : y = u
    · rw [e, p.black_u]; decide
    · rw [p.color_other y e]; exact hy
  · intro x y hx hy hle
    have e : x ≠ u := by
      intro e; rw [e, p.black_u] at hx; exact absurd hx (by decide)
    rw [p.color_other x e] at hx
    rw [p.e_s] at hy
    rw [p.e_dt] at hle
    exact h.inv.gray_reach x y hx (hsub y hy) hle
  · intro y hy
    rw [p.e_s] at hy
    obtain ⟨x, hx, hle, hreach⟩ := h.inv.stack_gray y (hsub y hy)
    have e : x ≠ u := by
      intro e
      have := (h.old_stack y hy).2.2
      rw [e] at hle; omega
    exact ⟨x, by rw [p.color_other x e]; exact hx, by rw [p.e_dt]; exact hle, hreach⟩
  · intro v w hv hvw
    rw [p.finished_iff h] at hv ⊢
    exact p.closed h hr v w hv hvw
  · intro v w hv hw
    rw [p.finished_iff h] at hv hw
    rcases hv with hv | hv
    · rcases hw with hw | hw
      · rw [p.comp_seg v hv, p.comp_seg w hw]
        simp only [true_iff]
        exact ⟨(p.reach_to_u h hr v hv).trans (p.reach_from_u h w hw),
          (p.reach_to_u h hr w hw).trans (p.reach_from_u h v hv)⟩
      · rw [p.comp_seg v hv, p.comp_finished w hw]
        have := h.inv.done_comp w hw
        constructor
        · intro e; omega
        · rintro ⟨_, hwv⟩
          exact absurd (finished_reachable h.inv hw hwv) (fun hf => p.not_seg_of_finished v hf hv)
    · rcases hw with hw | hw
      · rw [p.comp_seg w hw, p.comp_finished v hv]
        have := h.inv.done_comp v hv
        constructor
        · intro e; omega
        · rintro ⟨hvw, _⟩
          exact absurd (finished_reachable h.inv hv hvw) (fun hf => p.not_seg_of_finished w hf hw)
      · rw [p.comp_finished v hv, p.comp_finished w hw]
        exact h.inv.done_scc v w hv hw
  · intro k hk
    rw [p.e_c] at hk
    by_cases e : k = sb.c
    · exact ⟨u, (p.finished_iff h u).2 (Or.inl (Or.inr rfl)), by rw [p.comp_seg u (Or.inr rfl), e]⟩
    · obtain ⟨v, hv, hk1⟩ := h.inv.comp_used k (by omega)
      exact ⟨v, (p.finished_iff h v).2 (Or.inr hv), by rw [p.comp_finished v hv]; exact hk1⟩
  · intro v hv
    have e : v ≠ u := by
      intro e; rw [e, p.black_u] at hv; exact absurd hv (by decide)
    have hns : ¬ (v ∈ seg ∨ v = u) := by
      intro hm
      have := p.black_seg v hm
      rw [hv] at this; exact absurd this (by decide)
    rw [p.color_other v e] at hv
    rw [p.e_root v, if_neg hns]
    exact h.inv.gray_root v hv
  · intro w hw
    rw [p.e_s] at hw
    rw [p.e_root w, if_neg (p.old_not_seg h w hw), p.e_s, p.e_dt]
    obtain ⟨r1, r2, r3⟩ := h.inv.stack_root w (hsub w hw)
    refine ⟨?_, r2, r3⟩
    have hlt := (h.old_stack w hw).2.2
    rcases (p.mem_sb _).1 r1 with h1 | h1
    · rcases h1 with h1 | h1
      · have := h.dt_seg p.hs _ h1
        omega
      · rw [h1] at r2; omega
    · exact h1

theorem root_ext (p : Popped u st sb seg sp) (h : FinishCtx g u st sb) : Ext st sp := by
  constructor
  · intro v hv
    obtain ⟨e, o1, o2, o3, o4⟩ := h.old v hv
    have hns : ¬ (v ∈ seg ∨ v = u) := by
      intro hm; exact hv (p.not_old h v hm).2.1
    exact ⟨by rw [p.color_other v e]; exact o1, by rw [p.e_comp v, if_neg hns]; exact o2,
      by rw [p.e_root v, if_neg hns]; exact o3, by rw [p.e_dt]; exact o4⟩
  · intro v hv
    by_cases e : v = u
    · right; rw [e]; exact p.black_u
    · rw [p.color_other v e]
      exact h.ext.newcolor v (by rw [(discover_other u st v e).1]; exact hv)
  · exact ⟨[], by simp [p.e_s], by simp⟩
  · have := h.ext.time_mono
    simp only [discover_vertex] at this
    rw [p.e_time]
    omega
  · rw [p.e_c]
    have := h.c_le
    omega
  · intro v hv hf
    rcases (p.finished_iff h v).1 hf with h1 | h1
    · rw [p.comp_seg v h1]; exact h.c_le
    · rw [p.comp_finished v h1]
      have e : v ≠ u := by
        intro e; have := h1.1; rw [e, h.color_u] at this; exact absurd this (by decide)
      exact h.ext.new_comp v (by rw [(discover_other u st v e).1]; exact hv) h1

theorem root_xedge (p : Popped u st sb seg sp) (h : FinishCtx g u st sb) :
    XEdge g u st sp := by
  intro y hy hyw
  rw [p.e_s] at hy
  exact absurd hyw (h.inv0.stack_nonwhite y hy)

end Popped

/-- Effect of `finish_vertex` at the end of the visit of `u`. -/
theorem FinishCtx.finish {g : similarity_graph} {u : Nat} {st sb : tarjan_state}
    (h : FinishCtx g u st sb) :
    Inv g (finish_vertex g u sb) ∧ Ext st (finish_vertex g u sb) ∧
      (finish_vertex g u sb).color u = black_color ∧ XEdge g u st (finish_vertex g u sb) := by
  by_cases hr : finish_roots sb u (out_edges g u) u = u
  · obtain ⟨seg, p⟩ := h.popped hr
    exact ⟨p.root_inv h hr, p.root_ext h, p.black_u, p.root_xedge h⟩
  · rw [finish_vertex_nonroot g u sb hr]
    exact ⟨h.nonroot_inv hr, h.nonroot_ext, by simp, h.nonroot_xedge⟩

/-! ## The depth first visit -/

theorem Ext.nonwhite {st st1 : tarjan_state} (h : Ext st st1) (v : Nat)
    (hv : st.color v ≠ white_color) : st1.color v ≠ white_color := by
  rw [(h.frame v hv).1]; exact hv

/-- Loop rule for `visit_edges`: a property kept by every visit of a white vertex of the
list holds at the end, where no vertex of the list is white. -/
theorem visit_edges_spec (visit : Nat → tarjan_state → Option tarjan_state)
    (P : tarjan_state → Prop) (ws : List Nat)
    (hstep : ∀ v ∈ ws, ∀ st, P st → st.color v = white_color →
      ∃ st1, visit v st = some st1 ∧ P st1 ∧ Ext st st1 ∧ st1.color v ≠ white_color) :
    ∀ st, P st → ∃ st1, visit_edges visit ws st = some st1 ∧ P st1 ∧ Ext st st1 ∧
      ∀ w ∈ ws, st1.color w ≠ white_color := by
  induction ws with
  | nil =>
    intro st hp
    exact ⟨st, rfl, hp, Ext.refl st, by simp⟩
  | cons v vs ih =>
    intro st hp
    have ih1 := ih (fun w hw => hstep w (List.mem_cons_of_mem _ hw))
    by_cases hv : st.color v = white_color
    · obtain ⟨st1, e1, p1, x1, c1⟩ := hstep v (by simp) st hp hv
      obtain ⟨st2, e2, p2, x2, c2⟩ := ih1 st1 p1
      refine ⟨st2, ?_, p2, x1.trans x2, ?_⟩
      · simp only [visit_edges, hv, if_true, e1, e2]
      · intro w hw
        rcases List.mem_cons.1 hw with rfl | hw
        · exact x2.nonwhite _ c1
        · exact c2 w hw
    · obtain ⟨st2, e2, p2, x2, c2⟩ := ih1 st hp
      refine ⟨st2, ?_, p2, x2, ?_⟩
      · simp only [visit_edges, hv, if_false, e2]
      · intro w hw
        rcases List.mem_cons.1 hw with rfl | hw
        · exact x2.nonwhite _ hv
        · exact c2 w hw

theorem depth_first_visit_succ (g : similarity_graph) (fuel u : Nat) (st : tarjan_state) :
    depth_first_visit g (fuel + 1) u st =
      match visit_edges (fun v st1 => depth_first_visit g fuel v st1) (out_edges g u)
          (discover_vertex u st) with
      | none => none
      | some st2 => some (finish_vertex g u st2) := rfl

theorem Ext.gray_of_gray {st st1 : tarjan_state} (h : Ext st st1) (v : Nat)
    (hv : st1.color v = gray_color) : st.color v = gray_color := by
  by_cases hw : st.color v = white_color
  · rcases h.newcolor v hw with h1 | h1 <;> rw [h1] at hv <;> exact absurd hv (by decide)
  · rw [← (h.frame v hw).1]; exact hv

theorem xloop_start {g : similarity_graph} {st : tarjan_state} (hi : Inv g st) (u : Nat) :
    XLoop g u st (discover_vertex u st) := by
  intro y hy hyu hyw
  have : y ∈ st.s := (List.mem_cons.1 hy).resolve_left hyu
  exact absurd hyw (hi.stack_nonwhite y this)

theorem xloop_step {g : similarity_graph} {st sa sb : tarjan_state} {u w : Nat}
    (hia : Inv g sa) (ha : Ext (discover_vertex u st) sa) (hl : XLoop g u st sa)
    (huw : edge g u w) (hab : Ext sa sb) (hx : XEdge g w sa sb) :
    XLoop g u st sb := by
  intro y hy hyu hyw z hz hyz
  have hzs : z ∈ sa.s := ha.mem_stack z (List.mem_cons_of_mem _ hz)
  by_cases hya : sa.color y = white_color
  · obtain ⟨h1, h2⟩ := hx y hy hya
    exact ⟨w, huw, h1, h2 z hzs hyz⟩
  · have hys : y ∈ sa.s := by
      obtain ⟨seg, hs, hseg⟩ := hab.stack
      rw [hs] at hy
      rcases List.mem_append.1 hy with h1 | h1
      · exact absurd (hseg y h1).1 hya
      · exact h1
    obtain ⟨w1, hw1, hw1s, hle⟩ := hl y hys hyu hyw z hz hyz
    refine ⟨w1, hw1, hab.mem_stack w1 hw1s, ?_⟩
    have f1 := hab.frame w1 (hia.stack_nonwhite w1 hw1s)
    have f2 := hab.frame _ (hia.stack_nonwhite _ (hia.stack_root w1 hw1s).1)
    have f3 := hab.frame z (hia.stack_nonwhite z hzs)
    rw [f1.2.2.1, f2.2.2.2, f3.2.2.2]
    exact hle

/-- Correctness of a visit: with enough fuel it returns, it keeps the invariant, and it
leaves `u` black. -/
theorem visit_spec (g : similarity_graph) (hg : wf_graph g)
    (hmax : num_vertices g ≤ comp_max) :
    ∀ fuel u st, Inv g st → st.color u = white_color → u < num_vertices g →
      (∀ x, st.color x = gray_color → reachable g x u) →
      (white_set g st).card ≤ fuel →
      ∃ st1, depth_first_visit g fuel u st = some st1 ∧ Inv g st1 ∧ Ext st st1 ∧
        st1.color u = black_color ∧ XEdge g u st st1 := by
  intro fuel
  induction fuel with
  | zero =>
    intro u st _ hw hu _ hcard
    have := white_set_pos g st u hu hw
    omega
  | succ k ih =>
    intro u st hi hw hu hreach hcard
    have hi1 := discover_inv hi hw hu hreach
    have hcard1 := white_set_discover g st u hu hw
    obtain ⟨sb, e, ⟨pi, pe, pl⟩, _, hsucc⟩ := visit_edges_spec
      (fun v st1 => depth_first_visit g k v st1)
      (fun sa => Inv g sa ∧ Ext (discover_vertex u st) sa ∧ XLoop g u st sa)
      (out_edges g u)
      (by
        intro w hw1 sa ⟨hia, hea, hla⟩ hwa
        have hreach1 : ∀ x, sa.color x = gray_color → reachable g x w := by
          intro x hx
          have hx1 := hea.gray_of_gray x hx
          have : reachable g x u := by
            by_cases exu : x = u
            · rw [exu]; exact Relation.ReflTransGen.refl
            · rw [(discover_other u st x exu).1] at hx1
              exact hreach x hx1
          exact this.tail hw1
        have hcard2 : (white_set g sa).card ≤ k := by
          have := white_set_mono g (discover_vertex u st) sa hea.white_of_white
          omega
        obtain ⟨sa1, e1, i1, x1, b1, xe1⟩ :=
          ih w sa hia hwa (out_edges_lt hg hw1) hreach1 hcard2
        exact ⟨sa1, e1, ⟨i1, hea.trans x1, xloop_step hia hea hla hw1 x1 xe1⟩, x1,
          by rw [b1]; decide⟩)
      (discover_vertex u st) ⟨hi1, Ext.refl _, xloop_start hi u⟩
    have ctx : FinishCtx g u st sb := ⟨hmax, hi, hw, pi, pe, hsucc, pl⟩
    refine ⟨finish_vertex g u sb, ?_, ctx.finish⟩
    rw [depth_first_visit_succ, e]

/-! ## The whole search -/

theorem tarjan_init_inv (g : similarity_graph) : Inv g tarjan_init := by
  constructor
  · intro v hv; exact absurd rfl hv
  · intro v hv; exact absurd hv (by simp [tarjan_init])
  · intro v hv; simp [tarjan_init] at hv
  · intro v hv; simp [tarjan_init] at hv
  · intro v hv; exact absurd hv.1 (by simp [tarjan_init])
  · simp [tarjan_init]
  · intro v hv; simp [tarjan_init] at hv
  · simp [tarjan_init]
  · simp [tarjan_init, white_set]
  · intro x y hx; exact absurd hx (by simp [tarjan_init])
  · intro x y hx; exact absurd hx (by simp [tarjan_init])
  · intro y hy; simp [tarjan_init] at hy
  · intro v w hv; exact absurd hv.1 (by simp [tarjan_init])
  · intro v w hv; exact absurd hv.1 (by simp [tarjan_init])
  · intro k hk; simp [tarjan_init] at hk
  · intro v hv; exact absurd hv (by simp [tarjan_init])
  · intro w hw; simp [tarjan_init] at hw

/-- Loop of `depth_first_search` over a list of vertices, from a state without gray
vertex. -/
theorem search_loop (g : similarity_graph) (hg : wf_graph g)
    (hmax : num_vertices g ≤ comp_max) (ws : List Nat)
    (hws : ∀ w ∈ ws, w < num_vertices g) (st : tarjan_state) (hi : Inv g st)
    (hgray : ∀ v, st.color v ≠ gray_color) :
    ∃ st1, visit_edges (fun v s => depth_first_visit g (num_vertices g) v s) ws st = some st1 ∧
      Inv g st1 ∧ (∀ v, st1.color v ≠ gray_color) ∧ Ext st st1 ∧
      ∀ w ∈ ws, st1.color w = black_color := by
  obtain ⟨st1, e, ⟨pi, pg⟩, pe, pc⟩ := visit_edges_spec
    (fun v s => depth_first_visit g (num_vertices g) v s)
    (fun s => Inv g s ∧ ∀ v, s.color v ≠ gray_color) ws
    (by
      intro w hw sa ⟨hia, hga⟩ hwa
      obtain ⟨sa1, e1, i1, x1, b1, _⟩ := visit_spec g hg hmax (num_vertices g) w sa hia hwa
        (hws w hw) (fun x hx => absurd hx (hga x)) (white_set_card_le g sa)
      exact ⟨sa1, e1, ⟨i1, fun v hv => hga v (x1.gray_of_gray v hv)⟩, x1, by rw [b1]; decide⟩)
    st ⟨hi, hgray⟩
  refine ⟨st1, e, pi, pg, pe, ?_⟩
  intro w hw
  rcases color_cases (st1.color w) with h | h | h
  · exact absurd h (pc w hw)
  · exact absurd h (pg w)
  · exact h

theorem stack_empty_of_no_gray {g : similarity_graph} {st : tarjan_state} (hi : Inv g st)
    (hgray : ∀ v, st.color v ≠ gray_color) : st.s = [] := by
  cases hs : st.s with
  | nil => rfl
  | cons a l =>
    obtain ⟨x, hx, _⟩ := hi.stack_gray a (by rw [hs]; simp)
    exact absurd hx (hgray x)

/-- The search returns, and at the end every vertex is black with a complete
component. -/
theorem depth_first_search_spec (g : similarity_graph) (hg : wf_graph g)
    (hmax : num_vertices g ≤ comp_max) :
    ∃ st, depth_first_search g = some st ∧ Inv g st ∧
      ∀ v, v < num_vertices g → finished st v := by
  obtain ⟨st, e, hi, hgray, _, hb⟩ := search_loop g hg hmax (List.range (num_vertices g))
    (fun w hw => List.mem_range.1 hw) tarjan_init (tarjan_init_inv g)
    (by intro v; simp [tarjan_init])
  refine ⟨st, e, hi, ?_⟩
  intro v hv
  refine ⟨hb v (List.mem_range.2 hv), ?_⟩
  rw [stack_empty_of_no_gray hi hgray]
  simp

/-- Correctness of `strong_components` on a well formed graph of at most `comp_max`
vertices: it returns, every vertex gets a component number below the returned count,
every number below the count is used, and two vertices have the same number exactly when
each is reachable from the other. -/
theorem strong_components_spec (g : similarity_graph) (hg : wf_graph g)
    (hmax : num_vertices g ≤ comp_max) :
    ∃ num component, strong_components g = some (num, component) ∧
      (∀ v, v < num_vertices g → component v < num) ∧
      (∀ k, k < num → ∃ v, v < num_vertices g ∧ component v = k) ∧
      (∀ v w, v < num_vertices g → w < num_vertices g →
        (component v = component w ↔ reachable g v w ∧ reachable g w v)) := by
  obtain ⟨st, e, hi, hf⟩ := depth_first_search_spec g hg hmax
  refine ⟨st.c, st.comp, by simp [strong_components, e], ?_, ?_, ?_⟩
  · intro v hv
    exact hi.done_comp v (hf v hv)
  · intro k hk
    obtain ⟨v, hv, hk1⟩ := hi.comp_used k hk
    exact ⟨v, hi.lt_of_nonwhite v (by rw [hv.1]; decide), hk1⟩
  · intro v w hv hw
    exact hi.done_scc v w (hf v hv) (hf w hw)

/-- When vertex 0 has no out-edge it is finished first and gets the component
number 0. -/
theorem strong_components_zero (g : similarity_graph) (hg : wf_graph g)
    (hmax : num_vertices g ≤ comp_max) (hn : 0 < num_vertices g)
    (h0 : out_edges g 0 = []) :
    ∀ num component, strong_components g = some (num, component) → component 0 = 0 := by
  intro num component hsc
  obtain ⟨m, hm⟩ : ∃ m, num_vertices g = m + 1 := ⟨num_vertices g - 1, by omega⟩
  obtain ⟨s0, e0, i0, x0, b0, _⟩ := visit_spec g hg hmax (num_vertices g) 0 tarjan_init
    (tarjan_init_inv g) rfl hn (fun x hx => absurd hx (by simp [tarjan_init]))
    (white_set_card_le g _)
  have hs0 : s0.comp 0 = 0 := by
    rw [hm, depth_first_visit_succ, h0] at e0
    simp only [visit_edges, Option.some.injEq] at e0
    rw [← e0]
    simp [finish_vertex, h0, finish_roots, discover_vertex, tarjan_init, pop_component]
  have hg0 : ∀ v, s0.color v ≠ gray_color := by
    intro v hv
    have := x0.gray_of_gray v hv
    simp [tarjan_init] at this
  obtain ⟨st, e, _, _, pe, _⟩ := search_loop g hg hmax (List.range' 1 m)
    (by intro w hw; rw [List.mem_range'_1] at hw; omega) s0 i0 hg0
  have hdfs : depth_first_search g = some st := by
    unfold depth_first_search
    rw [List.range_eq_range', hm, List.range'_succ]
    rw [hm] at e e0
    simp only [visit_edges]
    rw [if_pos (show tarjan_init.color 0 = white_color from rfl), e0]
    exact e
  simp only [strong_components, hdfs, Option.some.injEq, Prod.mk.injEq] at hsc
  rw [← hsc.2, (pe.frame 0 (by rw [b0]; decide)).2.1]
  exact hs0

/-! ## Building the graph -/

theorem getD_pad (g : similarity_graph) (k x : Nat) :
    (g ++ List.replicate k ([] : List Nat)).getD x [] = g.getD x [] := by
  simp only [List.getD_eq_getElem?_getD]
  by_cases hx : x < g.length
  · rw [List.getElem?_append_left hx]
  · rw [List.getElem?_append_right (by omega), List.getElem?_eq_none (by omega : g.length ≤ x)]
    by_cases h2 : x - g.length < k
    · rw [List.getElem?_replicate_of_lt h2]; rfl
    · rw [List.getElem?_eq_none (by simp; omega)]

theorem num_vertices_add_edge (u v : Nat) (g : similarity_graph) :
    num_vertices (add_edge u v g) = max (num_vertices g) (max u v + 1) := by
  unfold add_edge num_vertices
  by_cases h : max u v ≥ g.length
  · simp only [h, if_true, List.length_set, List.length_append, List.length_replicate]
    omega
  · simp only [h, if_false, List.length_set]
    omega

theorem out_edges_add_edge (u v : Nat) (g : similarity_graph) (x : Nat) :
    out_edges (add_edge u v g) x = if x = u then out_edges g u ++ [v] else out_edges g x := by
  unfold add_edge out_edges
  by_cases h : max u v ≥ g.length
  · simp only [h, if_true, getD_pad]
    simp only [List.getD_eq_getElem?_getD, List.getElem?_set, List.length_append,
      List.length_replicate]
    by_cases hx : x = u
    · subst hx
      have : x < g.length + (max x v + 1 - g.length) := by omega
      simp [this]
    · simp only [hx, if_false, Ne.symm hx]
      rw [← List.getD_eq_getElem?_getD, ← List.getD_eq_getElem?_getD, getD_pad]
  · simp only [h, if_false]
    simp only [List.getD_eq_getElem?_getD, List.getElem?_set]
    by_cases hx : x = u
    · subst hx
      have : x < g.length := by omega
      simp [this]
    · simp only [hx, if_false, Ne.symm hx]

theorem edge_add_edge (u v : Nat) (g : similarity_graph) (x y : Nat) :
    edge (add_edge u v g) x y ↔ edge g x y ∨ (x = u ∧ y = v) := by
  unfold edge
  rw [out_edges_add_edge]
  by_cases hx : x = u
  · subst hx; simp
  · simp [hx]

theorem wf_graph_iff (g : similarity_graph) :
    wf_graph g ↔ ∀ x y, edge g x y → y < num_vertices g := by
  constructor
  · intro h x y hxy
    exact out_edges_lt h hxy
  · intro h es hes y hy
    obtain ⟨i, hi, e⟩ := List.getElem_of_mem hes
    apply h i y
    unfold edge out_edges
    rw [List.getD_eq_getElem _ _ hi, e]
    exact hy

theorem empty_graph_edge (n x y : Nat) : ¬ edge (empty_graph n) x y := by
  unfold edge out_edges empty_graph
  simp only [List.getD_eq_getElem?_getD]
  by_cases hx : x < n
  · rw [List.getElem?_replicate_of_lt hx]; simp
  · rw [List.getElem?_eq_none (by simp; omega)]; simp

theorem num_vertices_empty_graph (n : Nat) : num_vertices (empty_graph n) = n := by
  simp [num_vertices, empty_graph]

theorem add_matches_spec (id : Nat) (ms : List Nat) :
    ∀ g : similarity_graph,
      (∀ x y, edge (add_matches id ms g) x y ↔ edge g x y ∨ (x = id ∧ y ∈ ms ∧ y ≠ id)) ∧
      num_vertices g ≤ num_vertices (add_matches id ms g) ∧
      (∀ b, num_vertices g ≤ b → id < b → (∀ m ∈ ms, m < b) →
        num_vertices (add_matches id ms g) ≤ b) := by
  induction ms with
  | nil =>
    intro g
    refine ⟨by simp [add_matches], by simp [add_matches], ?_⟩
    intro b hb _ _
    simpa [add_matches] using hb
  | cons m ms ih =>
    intro g
    by_cases hm : m = id
    · have e : add_matches id (m :: ms) g = add_matches id ms g := by
        simp [add_matches, hm]
      rw [e]
      obtain ⟨h1, h2, h3⟩ := ih g
      refine ⟨?_, h2, fun b hb hid hms => h3 b hb hid (fun x hx => hms x (by simp [hx]))⟩
      intro x y
      rw [h1 x y]
      constructor
      · rintro (h | ⟨a, b, c⟩)
        · exact Or.inl h
        · exact Or.inr ⟨a, by simp [b], c⟩
      · rintro (h | ⟨a, b, c⟩)
        · exact Or.inl h
        · rcases List.mem_cons.1 b with b | b
          · exact absurd (b.trans hm) c
          · exact Or.inr ⟨a, b, c⟩
    · have e : add_matches id (m :: ms) g = add_matches id ms (add_edge id m g) := by
        simp [add_matches, hm]
      rw [e]
      obtain ⟨h1, h2, h3⟩ := ih (add_edge id m g)
      have hn := num_vertices_add_edge id m g
      refine ⟨?_, by omega, ?_⟩
      · intro x y
        rw [h1 x y, edge_add_edge]
        constructor
        · rintro ((h | ⟨a, b⟩) | ⟨a, b, c⟩)
          · exact Or.inl h
          · exact Or.inr ⟨a, by simp [b], by rw [b]; exact hm⟩
          · exact Or.inr ⟨a, by simp [b], c⟩
        · rintro (h | ⟨a, b, c⟩)
          · exact Or.inl (Or.inl h)
          · rcases List.mem_cons.1 b with b | b
            · exact Or.inl (Or.inr ⟨a, b⟩)
            · exact Or.inr ⟨a, b, c⟩
      · intro b hb hid hms
        apply h3 b _ hid (fun x hx => hms x (by simp [hx]))
        have := hms m (by simp)
        omega

/-- The loop of `populate_similarity_graph` over a list of ids whose queries all
succeed: it returns, and the edges of the result are the old ones and one edge per match
other than the document itself. -/
theorem populate_loop (db : Database) (threshold : Int) (ids : List Nat)
    (hq : ∀ id ∈ ids, ∃ ms, db.get_mset threshold id = some ms) :
    ∀ g0 : similarity_graph, ∃ g, ids.foldlM (populate_step db threshold) g0 = some g ∧
      (∀ x y, edge g x y ↔
        edge g0 x y ∨ (x ∈ ids ∧ in_mset db threshold x y ∧ y ≠ x)) ∧
      num_vertices g0 ≤ num_vertices g ∧
      (∀ b, num_vertices g0 ≤ b →
        (∀ id ∈ ids, id < b ∧ ∀ m, in_mset db threshold id m → m < b) →
        num_vertices g ≤ b) := by
  induction ids with
  | nil =>
    intro g0
    exact ⟨g0, rfl, by simp, le_refl _, fun b hb _ => hb⟩
  | cons id ids ih =>
    intro g0
    obtain ⟨ms, hms⟩ := hq id (by simp)
    obtain ⟨a1, a2, a3⟩ := add_matches_spec id ms g0
    obtain ⟨g, e, h1, h2, h3⟩ := ih (fun i hi => hq i (by simp [hi])) (add_matches id ms g0)
    refine ⟨g, ?_, ?_, by omega, ?_⟩
    · simp only [List.foldlM_cons, populate_step, hms]
      exact e
    · intro x y
      rw [h1 x y, a1 x y]
      constructor
      · rintro ((h | ⟨a, b, c⟩) | ⟨a, b, c⟩)
        · exact Or.inl h
        · exact Or.inr ⟨by simp [a], ⟨ms, by rw [a]; exact hms, b⟩, by rw [a]; exact c⟩
        · exact Or.inr ⟨by simp [a], b, c⟩
      · rintro (h | ⟨a, ⟨ms1, b1, b2⟩, c⟩)
        · exact Or.inl (Or.inl h)
        · rcases List.mem_cons.1 a with a | a
          · rw [a, hms] at b1
            simp only [Option.some.injEq] at b1
            exact Or.inl (Or.inr ⟨a, by rw [b1]; exact b2, by rw [← a]; exact c⟩)
          · exact Or.inr ⟨a, ⟨ms1, b1, b2⟩, c⟩
    · intro b hb hids
      apply h3 b _ (fun i hi => hids i (by simp [hi]))
      obtain ⟨hid, hm⟩ := hids id (by simp)
      exact a3 b hb hid (fun m hm1 => hm m ⟨ms, hms, hm1⟩)

/-- The loop of `populate_similarity_graph` is left by an exception exactly when one of
the queries fails. -/
theorem populate_loop_none (db : Database) (threshold : Int) (ids : List Nat) :
    ∀ g0 : similarity_graph, ids.foldlM (populate_step db threshold) g0 = none ↔
      ∃ id ∈ ids, db.get_mset threshold id = none := by
  induction ids with
  | nil => intro g0; simp
  | cons id ids ih =>
    intro g0
    cases hms : db.get_mset threshold id with
    | none => simp [populate_step, hms]
    | some ms =>
      have e : (id :: ids).foldlM (populate_step db threshold) g0 =
          ids.foldlM (populate_step db threshold) (add_matches id ms g0) := by
        simp only [List.foldlM_cons, populate_step, hms]
        rfl
      rw [e, ih]
      simp [hms]

theorem mem_populate_ids (db : Database) (id : Nat) :
    id ∈ populate_ids db ↔ 1 ≤ id ∧ id < db.get_lastdocid := by
  unfold populate_ids
  rw [List.mem_range'_1]
  omega

/-! ## Properties of the report -/

theorem mem_component_members (component : Nat → Nat) (nv i v : Nat) :
    v ∈ component_members component nv i ↔ 1 ≤ v ∧ v < nv ∧ component v = i := by
  unfold component_members
  rw [List.mem_filter, List.mem_range'_1]
  simp only [decide_eq_true_eq]
  omega

theorem component_members_sorted (component : Nat → Nat) (nv i : Nat) :
    (component_members component nv i).Pairwise (fun a b => a < b) := by
  unfold component_members
  exact (List.pairwise_lt_range' 1 (nv - 1)).filter _

theorem mem_report_blocks (num : Nat) (component : Nat → Nat) (nv : Nat) (b : Nat × List Nat) :
    b ∈ report_blocks num component nv ↔
      1 ≤ b.1 ∧ b.1 < num ∧ b.2 = component_members component nv b.1 ∧ 1 < b.2.length := by
  unfold report_blocks
  rw [List.mem_filter, List.mem_map]
  simp only [List.mem_range'_1, gt_iff_lt, decide_eq_true_eq]
  constructor
  · rintro ⟨⟨i, hi, rfl⟩, hl⟩
    exact ⟨hi.1, by omega, rfl, hl⟩
  · rintro ⟨h1, h2, h3, h4⟩
    refine ⟨⟨b.1, ⟨h1, by omega⟩, ?_⟩, h4⟩
    rw [← h3]

theorem report_blocks_sorted (num : Nat) (component : Nat → Nat) (nv : Nat) :
    (report_blocks num component nv).Pairwise (fun a b => a.1 < b.1) := by
  unfold report_blocks
  apply List.Pairwise.filter
  rw [List.pairwise_map]
  exact List.pairwise_lt_range' 1 (num - 1)

theorem component_members_length (component : Nat → Nat) (n i : Nat) :
    (component_members component (n + 1) i).length =
      ((Finset.Icc 1 n).filter (fun j => component j = i)).card := by
  have hnd : (component_members component (n + 1) i).Nodup :=
    (component_members_sorted component (n + 1) i).imp (fun h => Nat.ne_of_lt h)
  rw [← List.toFinset_card_of_nodup hnd]
  congr 1
  ext v
  rw [List.mem_toFinset, mem_component_members, Finset.mem_filter, Finset.mem_Icc]
  omega

theorem component_members_card (component : Nat → Nat) (nv i : Nat) :
    (component_members component nv i).length =
      ((Finset.Ico 1 nv).filter (fun j => component j = i)).card := by
  have hnd : (component_members component nv i).Nodup :=
    (component_members_sorted component nv i).imp (fun h => Nat.ne_of_lt h)
  rw [← List.toFinset_card_of_nodup hnd]
  congr 1
  ext v
  rw [List.mem_toFinset, mem_component_members, Finset.mem_filter, Finset.mem_Ico]
  omega

/-! ## The graph built by `main` from an answering provider -/

theorem provider_in_range.answers {db : Database} {threshold : Int}
    (h : provider_in_range db threshold) (hn : db.get_lastdocid < comp_max) :
    provider_answers db threshold := by
  intro id h1 h2
  obtain ⟨ms, e, hms⟩ := h id h1 h2
  exact ⟨ms, e, fun m hm => by have := (hms m hm).2; omega⟩

theorem wf_add_edge (u v : Nat) (g : similarity_graph) (hg : wf_graph g) :
    wf_graph (add_edge u v g) := by
  rw [wf_graph_iff] at hg ⊢
  intro x y hxy
  rw [num_vertices_add_edge]
  rcases (edge_add_edge u v g x y).1 hxy with h | ⟨_, h⟩
  · have := hg x y h
    omega
  · omega

theorem wf_add_matches (id : Nat) (ms : List Nat) :
    ∀ g : similarity_graph, wf_graph g → wf_graph (add_matches id ms g) := by
  induction ms with
  | nil => intro g hg; exact hg
  | cons m ms ih =>
    intro g hg
    by_cases hm : m = id
    · have e : add_matches id (m :: ms) g = add_matches id ms g := by
        simp [add_matches, hm]
      rw [e]; exact ih g hg
    · have e : add_matches id (m :: ms) g = add_matches id ms (add_edge id m g) := by
        simp [add_matches, hm]
      rw [e]; exact ih _ (wf_add_edge id m g hg)

theorem wf_populate_loop (db : Database) (threshold : Int) (ids : List Nat) :
    ∀ g0 g : similarity_graph, ids.foldlM (populate_step db threshold) g0 = some g →
      wf_graph g0 → wf_graph g := by
  induction ids with
  | nil =>
    intro g0 g e hg
    simp only [List.foldlM_nil] at e
    cases e
    exact hg
  | cons id ids ih =>
    intro g0 g e hg
    cases hms : db.get_mset threshold id with
    | none => simp [populate_step, hms] at e
    | some ms =>
      have e1 : (id :: ids).foldlM (populate_step db threshold) g0 =
          ids.foldlM (populate_step db threshold) (add_matches id ms g0) := by
        simp only [List.foldlM_cons, populate_step, hms]
        rfl
      rw [e1] at e
      exact ih _ g e (wf_add_matches id ms g0 hg)

theorem wf_empty_graph (n : Nat) : wf_graph (empty_graph n) := by
  rw [wf_graph_iff]
  intro x y h
  exact absurd h (empty_graph_edge n x y)

/-- What `populate_similarity_graph` builds from the empty graph of `main` when the
queries it issues are answered: the edges `x -> y` are those with `1 ≤ x < get_lastdocid`,
`y` a match of `x` and `y ≠ x`. -/
theorem populate_spec (db : Database) (threshold : Int)
    (hq : ∀ id, 1 ≤ id → id < db.get_lastdocid → ∃ ms, db.get_mset threshold id = some ms) :
    ∃ g, populate_similarity_graph db threshold (empty_graph (db.get_lastdocid + 1)) = some g ∧
      wf_graph g ∧
      (∀ x y, edge g x y ↔
        (1 ≤ x ∧ x < db.get_lastdocid) ∧ in_mset db threshold x y ∧ y ≠ x) ∧
      db.get_lastdocid + 1 ≤ num_vertices g ∧
      (∀ b, db.get_lastdocid + 1 ≤ b →
        (∀ id, 1 ≤ id → id < db.get_lastdocid → ∀ m, in_mset db threshold id m → m < b) →
        num_vertices g ≤ b) := by
  obtain ⟨g, e, h1, h2, h3⟩ := populate_loop db threshold (populate_ids db)
    (fun id hid => hq id ((mem_populate_ids db id).1 hid).1 ((mem_populate_ids db id).1 hid).2)
    (empty_graph (db.get_lastdocid + 1))
  rw [num_vertices_empty_graph] at h2 h3
  refine ⟨g, e, wf_populate_loop db threshold _ _ g e (wf_empty_graph _), ?_, h2, ?_⟩
  · intro x y
    rw [h1 x y, mem_populate_ids]
    constructor
    · rintro (h | h)
      · exact absurd h (empty_graph_edge _ x y)
      · exact h
    · intro h; exact Or.inr h
  · intro b hb hm
    apply h3 b hb
    intro id hid
    rw [mem_populate_ids] at hid
    exact ⟨by omega, hm id hid.1 hid.2⟩

/-- The graph of `main` when the provider answers with ids that fit: the search of
the strong components applies to it. -/
theorem populate_answers (db : Database) (threshold : Int)
    (hq : provider_answers db threshold) (hn : db.get_lastdocid < comp_max) :
    ∃ g, populate_similarity_graph db threshold (empty_graph (db.get_lastdocid + 1)) = some g ∧
      wf_graph g ∧ num_vertices g ≤ comp_max ∧ db.get_lastdocid + 1 ≤ num_vertices g ∧
      (∀ x y, edge g x y ↔
        (1 ≤ x ∧ x < db.get_lastdocid) ∧ in_mset db threshold x y ∧ y ≠ x) := by
  obtain ⟨g, e, hwf, hedge, hlow, hup⟩ := populate_spec db threshold
    (fun id h1 h2 => by
      obtain ⟨ms, e, _⟩ := hq id h1 (by omega)
      exact ⟨ms, e⟩)
  refine ⟨g, e, hwf, ?_, hlow, hedge⟩
  apply hup comp_max (by omega)
  intro id h1 h2 m ⟨ms, e1, hm⟩
  obtain ⟨ms1, e2, hms⟩ := hq id h1 (by omega)
  rw [e1] at e2
  cases e2
  exact hms m hm

/-- The graph of `main` when the provider answers with ids in range: it keeps its
`get_lastdocid + 1` vertices and vertex 0 is isolated. -/
theorem populate_in_range (db : Database) (threshold : Int)
    (hq : provider_in_range db threshold) (hn : db.get_lastdocid < comp_max) :
    ∃ g, populate_similarity_graph db threshold (empty_graph (db.get_lastdocid + 1)) = some g ∧
      wf_graph g ∧ num_vertices g ≤ comp_max ∧ num_vertices g = db.get_lastdocid + 1 ∧
      (∀ x y, edge g x y ↔
        (1 ≤ x ∧ x < db.get_lastdocid) ∧ in_mset db threshold x y ∧ y ≠ x) ∧
      out_edges g 0 = [] ∧ (∀ x, ¬ edge g x 0) := by
  obtain ⟨g, e, hwf, hedge, hlow, hup⟩ := populate_spec db threshold
    (fun id h1 h2 => by
      obtain ⟨ms, e, _⟩ := hq id h1 (by omega)
      exact ⟨ms, e⟩)
  have hnum : num_vertices g = db.get_lastdocid + 1 := by
    apply le_antisymm _ hlow
    apply hup _ (le_refl _)
    intro id h1 h2 m ⟨ms, e1, hm⟩
    obtain ⟨ms1, e2, hms⟩ := hq id h1 (by omega)
    rw [e1] at e2
    cases e2
    have := (hms m hm).2
    omega
  refine ⟨g, e, hwf, by omega, hnum, hedge, ?_, ?_⟩
  · apply List.eq_nil_iff_forall_not_mem.2
    intro y hy
    have := (hedge 0 y).1 hy
    omega
  · intro x hx
    obtain ⟨⟨h1, h2⟩, ⟨ms, e1, hm⟩, _⟩ := (hedge x 0).1 hx
    obtain ⟨ms1, e2, hms⟩ := hq x h1 (by omega)
    rw [e1] at e2
    cases e2
    have := (hms 0 hm).1
    omega

theorem reachable_match_chain {db : Database} {threshold : Int} {g : similarity_graph}
    (hedge : ∀ x y, edge g x y ↔
      (1 ≤ x ∧ x < db.get_lastdocid) ∧ in_mset db threshold x y ∧ y ≠ x)
    {a b : Nat} (h : reachable g a b) : match_chain db threshold a b := by
  refine Relation.ReflTransGen.mono ?_ h
  intro x y hxy
  exact ((hedge x y).1 hxy).2

theorem exists_other_member (l : List Nat) (hnd : l.Nodup) (hlen : 1 < l.length) (d : Nat) :
    ∃ e ∈ l, e ≠ d := by
  match l, hnd, hlen with
  | a :: b :: rest, hnd, _ =>
    have hab : a ≠ b := by
      intro h
      rw [h] at hnd
      simp at hnd
    by_cases h : a = d
    · exact ⟨b, by simp, fun hb => hab (h.trans hb.symm)⟩
    · exact ⟨a, by simp, h⟩

theorem find_strong_components_ids_eq (g : similarity_graph) (num : Nat)
    (component : Nat → Nat) (h : strong_components g = some (num, component)) :
    find_strong_components_ids g = some (report_blocks num component (num_vertices g)) := by
  simp [find_strong_components_ids, h]

theorem find_strong_components_eq (db : Database) (g : similarity_graph) (num : Nat)
    (component : Nat → Nat) (h : strong_components g = some (num, component)) :
    find_strong_components db g =
      some ((report_blocks num component (num_vertices g)).map
        (fun b => b.2.map db.get_data)) := by
  simp [find_strong_components, find_strong_components_ids, h]

/-! ## The components of the graph built by `main` -/

theorem scenario_a_in_range : provider_in_range scenario_a 80 := by
  intro id h1 h2
  have h3 : id ≤ 3 := h2
  have : id = 1 ∨ id = 2 ∨ id = 3 := by omega
  rcases this with rfl | rfl | rfl
  · exact ⟨[2], rfl, by decide⟩
  · exact ⟨[1], rfl, by decide⟩
  · exact ⟨[], rfl, by decide⟩

theorem scenario_a_answers : provider_answers scenario_a 80 :=
  scenario_a_in_range.answers (by decide)

theorem reachable_of_no_out_edges {g : similarity_graph} {a b : Nat}
    (h0 : out_edges g a = []) (h : reachable g a b) : b = a := by
  rcases Relation.ReflTransGen.cases_head h with h1 | ⟨c, hc, _⟩
  · exact h1.symm
  · unfold edge at hc
    rw [h0] at hc
    simp at hc

/-- The components of a graph whose vertex 0 has no out-edge: vertex 0 alone has the
component number 0. -/
theorem isolated_zero_components (g : similarity_graph) (hwf : wf_graph g)
    (hmax : num_vertices g ≤ comp_max) (hn : 0 < num_vertices g)
    (h0 : out_edges g 0 = []) :
    ∃ num component, strong_components g = some (num, component) ∧
      (∀ v, v < num_vertices g → component v < num) ∧
      (∀ v w, v < num_vertices g → w < num_vertices g →
        (component v = component w ↔ reachable g v w ∧ reachable g w v)) ∧
      component 0 = 0 ∧
      (∀ v, 1 ≤ v → v < num_vertices g → component v ≠ 0) := by
  obtain ⟨num, component, esc, hlt, _, hscc⟩ := strong_components_spec g hwf hmax
  have hzero := strong_components_zero g hwf hmax hn h0 num component esc
  refine ⟨num, component, esc, hlt, hscc, hzero, ?_⟩
  intro v h1 h2 hc
  have := (hscc 0 v hn h2).1 (by rw [hzero, hc])
  have := reachable_of_no_out_edges h0 this.1
  omega

/-- The graph of `main` and its components when the provider answers in range. -/
theorem built_components (db : Database) (threshold : Int)
    (hq : provider_in_range db threshold) (hn : db.get_lastdocid < comp_max) :
    ∃ g num component,
      populate_similarity_graph db threshold (empty_graph (db.get_lastdocid + 1)) = some g ∧
      num_vertices g = db.get_lastdocid + 1 ∧
      (∀ x y, edge g x y ↔
        (1 ≤ x ∧ x < db.get_lastdocid) ∧ in_mset db threshold x y ∧ y ≠ x) ∧
      out_edges g 0 = [] ∧ (∀ x, ¬ edge g x 0) ∧
      strong_components g = some (num, component) ∧
      (∀ v, v ≤ db.get_lastdocid → component v < num) ∧
      (∀ v w, v ≤ db.get_lastdocid → w ≤ db.get_lastdocid →
        (component v = component w ↔ reachable g v w ∧ reachable g w v)) ∧
      component 0 = 0 ∧
      (∀ v, 1 ≤ v → v ≤ db.get_lastdocid → component v ≠ 0) := by
  obtain ⟨g, e, hwf, hmax, hnum, hedge, h0, hin0⟩ := populate_in_range db threshold hq hn
  obtain ⟨num, component, esc, hlt, _, hscc⟩ := strong_components_spec g hwf hmax
  have hzero := strong_components_zero g hwf hmax (by omega) h0 num component esc
  refine ⟨g, num, component, e, hnum, hedge, h0, hin0, esc, ?_, ?_, hzero, ?_⟩
  · intro v hv; exact hlt v (by omega)
  · intro v w hv hw; exact hscc v w (by omega) (by omega)
  · intro v h1 h2 hc
    have := (hscc 0 v (by omega) (by omega)).1 (by rw [hzero, hc])
    have := reachable_of_no_out_edges h0 this.1
    omega

/-! ## Main results -/

/-- C1 (defect): with two documents that match each other, the loop
`for (id = 1; id < get_lastdocid(); id++)` never queries the last document: `doc1` is in
the match set of `doc2` and differs from it, yet the populated graph has the single edge
`1 -> 2` and no edge `2 -> 1`. -/
theorem populate_skips_last_document :
    in_mset mutual_pair 80 2 1 ∧ (1 : Nat) ≠ 2 ∧
    populate_similarity_graph mutual_pair 80 (empty_graph 3) = some [[], [2], []] ∧
    ¬ edge [[], [2], []] 2 1 := by
  refine ⟨⟨[1], rfl, by decide⟩, by decide, by decide, ?_⟩
  unfold edge out_edges
  decide

/-- C2: on every well formed graph of at most `comp_max` vertices `strong_components`
returns a count `num` and a component map such that every vertex has a number below
`num`, and two vertices have the same number exactly when each is reachable from the
other. -/
theorem strong_components_correct (G : similarity_graph) (hwf : wf_graph G)
    (hsize : num_vertices G ≤ comp_max) :
    ∃ num component, strong_components G = some (num, component) ∧
      (∀ v, v < num_vertices G → component v < num) ∧
      (∀ u v, u < num_vertices G → v < num_vertices G →
        (component u = component v ↔ reachable G u v ∧ reachable G v u)) := by
  obtain ⟨num, component, e, h1, _, h3⟩ := strong_components_spec G hwf hsize
  exact ⟨num, component, e, h1, h3⟩

/-- Witness of C2 on the graph of Scenario A. -/
theorem strong_components_correct_witness :
    wf_graph [[], [2], [1], []] ∧ num_vertices [[], [2], [1], []] ≤ comp_max ∧
    ∃ num component, strong_components [[], [2], [1], []] = some (num, component) ∧
      (∀ v, v < num_vertices [[], [2], [1], []] → component v < num) ∧
      (∀ u v, u < num_vertices [[], [2], [1], []] → v < num_vertices [[], [2], [1], []] →
        (component u = component v ↔
          reachable [[], [2], [1], []] u v ∧ reachable [[], [2], [1], []] v u)) :=
  ⟨by decide, by decide, strong_components_correct [[], [2], [1], []] (by decide) (by decide)⟩

/-- C3 (defect): two documents that match each other are not reported when one of them
is the last document: the report of the corpus `mutual_pair` is empty. On Scenario A,
where the last document is not part of the pair, the report is the single block
`doc1, doc2`. -/
theorem mutual_pair_not_reported :
    in_mset mutual_pair 80 1 2 ∧ in_mset mutual_pair 80 2 1 ∧
    main_clusters mutual_pair 80 = some [] ∧
    main_clusters scenario_a 80 = some [["doc1", "doc2"]] := by
  refine ⟨⟨[2], rfl, by decide⟩, ⟨[1], rfl, by decide⟩, by decide, by decide⟩

/-- C4: on every well formed graph over the vertices `0 .. N` (the documents are
`1 .. N`) in which vertex 0 has no out-edge, `find_strong_components` prints a block for
a component number exactly when at least two documents have that number; every printed
block has at least two members, without repetition, which are exactly the vertices of
that component; no component number is printed twice; and the printed text is the list
of the labels of these members. -/
theorem report_exactly_nontrivial_components (g : similarity_graph) (N : Nat)
    (db : Database) (hwf : wf_graph g) (hnum : num_vertices g = N + 1)
    (hsize : N < comp_max) (h0 : out_edges g 0 = []) :
    ∃ num component,
      strong_components g = some (num, component) ∧
      find_strong_components_ids g = some (report_blocks num component (N + 1)) ∧
      find_strong_components db g =
        some ((report_blocks num component (N + 1)).map (fun b => b.2.map db.get_data)) ∧
      (∀ k, k < num →
        ((∃ b ∈ report_blocks num component (N + 1), b.1 = k) ↔
          2 ≤ ((Finset.Icc 1 N).filter (fun j => component j = k)).card)) ∧
      (∀ b ∈ report_blocks num component (N + 1),
        2 ≤ b.2.length ∧ b.2.Nodup ∧
          (∀ v, v ∈ b.2 ↔ (v ≤ N ∧ component v = b.1)) ∧
          (∀ v, v ∈ b.2 → 1 ≤ v)) ∧
      ((report_blocks num component (N + 1)).map (fun b => b.1)).Nodup := by
  obtain ⟨num, component, esc, _, _, hzero, hnz⟩ :=
    isolated_zero_components g hwf (by omega) (by omega) h0
  have e1 := find_strong_components_ids_eq g num component esc
  have e2 := find_strong_components_eq db g num component esc
  rw [hnum] at e1 e2
  refine ⟨num, component, esc, e1, e2, ?_, ?_, ?_⟩
  · intro k hk
    rw [← component_members_length]
    constructor
    · rintro ⟨b, hb, rfl⟩
      obtain ⟨_, _, h3, h4⟩ := (mem_report_blocks _ _ _ b).1 hb
      rw [← h3]; omega
    · intro h
      have hk1 : 1 ≤ k := by
        by_contra hk0
        have hk0 : k = 0 := by omega
        obtain ⟨v, hv⟩ := List.exists_mem_of_length_pos
          (by omega : 0 < (component_members component (N + 1) k).length)
        rw [mem_component_members] at hv
        exact hnz v hv.1 (by omega) (by rw [hv.2.2, hk0])
      exact ⟨(k, component_members component (N + 1) k),
        (mem_report_blocks _ _ _ _).2 ⟨hk1, hk, rfl, by simpa using h⟩, rfl⟩
  · intro b hb
    obtain ⟨h1, _, h3, h4⟩ := (mem_report_blocks _ _ _ b).1 hb
    refine ⟨by omega, ?_, ?_, ?_⟩
    · rw [h3]
      exact (component_members_sorted _ _ _).imp (fun h => Nat.ne_of_lt h)
    · intro v
      rw [h3, mem_component_members]
      constructor
      · rintro ⟨_, a, c⟩; exact ⟨by omega, c⟩
      · rintro ⟨a, c⟩
        refine ⟨?_, by omega, c⟩
        by_contra hv
        have hv0 : v = 0 := by omega
        rw [hv0, hzero] at c
        omega
    · intro v hv
      rw [h3, mem_component_members] at hv
      exact hv.1
  · rw [List.Nodup, List.pairwise_map]
    exact (report_blocks_sorted _ _ _).imp (fun h => Nat.ne_of_lt h)

/-- Witness of C4 on the graph of two documents that match each other, where the last
vertex is a member of the printed block. -/
theorem report_exactly_nontrivial_components_witness :
    wf_graph [[], [2], [1]] ∧ num_vertices [[], [2], [1]] = 2 + 1 ∧ 2 < comp_max ∧
    out_edges [[], [2], [1]] 0 = [] ∧
    ∃ num component,
      strong_components [[], [2], [1]] = some (num, component) ∧
      find_strong_components_ids [[], [2], [1]] = some (report_blocks num component (2 + 1)) ∧
      find_strong_components mutual_pair [[], [2], [1]] =
        some ((report_blocks num component (2 + 1)).map
          (fun b => b.2.map mutual_pair.get_data)) ∧
      (∀ k, k < num →
        ((∃ b ∈ report_blocks num component (2 + 1), b.1 = k) ↔
          2 ≤ ((Finset.Icc 1 2).filter (fun j => component j = k)).card)) ∧
      (∀ b ∈ report_blocks num component (2 + 1),
        2 ≤ b.2.length ∧ b.2.Nodup ∧
          (∀ v, v ∈ b.2 ↔ (v ≤ 2 ∧ component v = b.1)) ∧
          (∀ v, v ∈ b.2 → 1 ≤ v)) ∧
      ((report_blocks num component (2 + 1)).map (fun b => b.1)).Nodup :=
  ⟨by decide, rfl, by decide, rfl,
    report_exactly_nontrivial_components [[], [2], [1]] 2 mutual_pair (by decide) rfl
      (by decide) rfl⟩

/-- C5: when the provider answers every query, the run reports, and any two vertices
listed in the same printed block are linked in both directions by a chain of relevance
matches, each one a match of the provider other than the document itself. -/
theorem reported_clusters_sound (db : Database) (threshold : Int)
    (hq : provider_answers db threshold) (hn : db.get_lastdocid < comp_max) :
    ∃ g blocks,
      populate_similarity_graph db threshold (empty_graph (db.get_lastdocid + 1)) = some g ∧
      find_strong_components_ids g = some blocks ∧
      main_clusters db threshold = some (blocks.map (fun b => b.2.map db.get_data)) ∧
      ∀ b ∈ blocks, ∀ A ∈ b.2, ∀ B ∈ b.2,
        match_chain db threshold A B ∧ match_chain db threshold B A := by
  obtain ⟨g, e, hwf, hmax, _, hedge⟩ := populate_answers db threshold hq hn
  obtain ⟨num, component, esc, _, _, hscc⟩ := strong_components_spec g hwf hmax
  refine ⟨g, report_blocks num component (num_vertices g), e,
    find_strong_components_ids_eq g num component esc, ?_, ?_⟩
  · simp only [main_clusters, e]
    exact find_strong_components_eq db g num component esc
  · intro b hb A hA B hB
    obtain ⟨_, _, h3, _⟩ := (mem_report_blocks _ _ _ b).1 hb
    rw [h3, mem_component_members] at hA hB
    have := (hscc A B hA.2.1 hB.2.1).1 (by rw [hA.2.2, hB.2.2])
    exact ⟨reachable_match_chain hedge this.1, reachable_match_chain hedge this.2⟩

/-- Witness of C5 on Scenario A. -/
theorem reported_clusters_sound_witness :
    provider_answers scenario_a 80 ∧ scenario_a.get_lastdocid < comp_max ∧
    ∃ g blocks,
      populate_similarity_graph scenario_a 80 (empty_graph (scenario_a.get_lastdocid + 1))
        = some g ∧
      find_strong_components_ids g = some blocks ∧
      main_clusters scenario_a 80 = some (blocks.map (fun b => b.2.map scenario_a.get_data)) ∧
      ∀ b ∈ blocks, ∀ A ∈ b.2, ∀ B ∈ b.2,
        match_chain scenario_a 80 A B ∧ match_chain scenario_a 80 B A :=
  ⟨scenario_a_answers, by decide,
    reported_clusters_sound scenario_a 80 scenario_a_answers (by decide)⟩

theorem scenario_d_answers : provider_answers scenario_d 80 := by
  intro id h1 h2
  have h3 : id ≤ 2 := h2
  have : id = 1 ∨ id = 2 := by omega
  rcases this with rfl | rfl
  · exact ⟨[1], rfl, by decide⟩
  · exact ⟨[], rfl, by decide⟩

/-- C6: when the provider answers every query, whatever it returns, the populated
graph has no edge `a -> a`; and a document whose query matches nothing but itself has
no out-edge and is in no printed block. -/
theorem no_self_loop (db : Database) (threshold : Int)
    (hq : provider_answers db threshold) (hn : db.get_lastdocid < comp_max) :
    ∃ g blocks,
      populate_similarity_graph db threshold (empty_graph (db.get_lastdocid + 1)) = some g ∧
      find_strong_components_ids g = some blocks ∧
      (∀ a, ¬ edge g a a) ∧
      ∀ d, (∀ m, in_mset db threshold d m → m = d) →
        out_edges g d = [] ∧ ∀ b ∈ blocks, d ∉ b.2 := by
  obtain ⟨g, e, hwf, hmax, _, hedge⟩ := populate_answers db threshold hq hn
  obtain ⟨num, component, esc, _, _, hscc⟩ := strong_components_spec g hwf hmax
  refine ⟨g, report_blocks num component (num_vertices g), e,
    find_strong_components_ids_eq g num component esc, ?_, ?_⟩
  · intro a ha
    exact ((hedge a a).1 ha).2.2 rfl
  · intro d hd
    have hout : out_edges g d = [] := by
      apply List.eq_nil_iff_forall_not_mem.2
      intro y hy
      obtain ⟨_, h2, h3⟩ := (hedge d y).1 hy
      exact h3 (hd y h2)
    refine ⟨hout, ?_⟩
    intro b hb hdb
    obtain ⟨_, _, h3, h4⟩ := (mem_report_blocks _ _ _ b).1 hb
    have hnd : b.2.Nodup := by
      rw [h3]
      exact (component_members_sorted _ _ _).imp (fun h => Nat.ne_of_lt h)
    obtain ⟨x, hx, hxd⟩ := exists_other_member b.2 hnd h4 d
    rw [h3, mem_component_members] at hdb hx
    have := (hscc d x hdb.2.1 hx.2.1).1 (by rw [hdb.2.2, hx.2.2])
    exact hxd (reachable_of_no_out_edges hout this.1)

/-- Witness of C6 on Scenario D. -/
theorem no_self_loop_witness :
    provider_answers scenario_d 80 ∧ scenario_d.get_lastdocid < comp_max ∧
    ∃ g blocks,
      populate_similarity_graph scenario_d 80 (empty_graph (scenario_d.get_lastdocid + 1))
        = some g ∧
      find_strong_components_ids g = some blocks ∧
      (∀ a, ¬ edge g a a) ∧
      ∀ d, (∀ m, in_mset scenario_d 80 d m → m = d) →
        out_edges g d = [] ∧ ∀ b ∈ blocks, d ∉ b.2 :=
  ⟨scenario_d_answers, by decide, no_self_loop scenario_d 80 scenario_d_answers (by decide)⟩

/-- C7 (as stated, refuted): the query of `doc1` fails in the corpus `failing_query`;
the run is ended by the exception and reports nothing, whereas the same corpus with an
empty result for `doc1` reports the block `doc2, doc3`. -/
theorem query_failure_not_recovered :
    failing_query.get_mset 80 1 = none ∧
    populate_similarity_graph failing_query 80 (empty_graph 5) = none ∧
    main_clusters failing_query 80 = none ∧
    (main failing_query_env).status = Status.uncaught_exception ∧
    populate_similarity_graph (with_empty_result failing_query 1) 80 (empty_graph 5)
      = some [[], [], [3], [2], []] ∧
    main_clusters (with_empty_result failing_query 1) 80 = some [["doc2", "doc3"]] := by
  refine ⟨rfl, by decide, by decide, by decide, by decide, by decide⟩

/-- C7 (amended): when the query of a document `d` with `1 ≤ d < get_lastdocid` fails,
the exception leaves `populate_similarity_graph`, the run ends without a report. -/
theorem query_failure_aborts (env : Environment) (db : Database) (d : Nat)
    (hargc : env.argc = 3) (ht : 0 ≤ env.threshold ∧ env.threshold ≤ 100)
    (hdir : env.is_directory = true) (hdb : env.db_exists = false)
    (hindexed : env.indexed = some db) (hd : 1 ≤ d ∧ d < db.get_lastdocid)
    (hfail : db.get_mset env.threshold d = none) :
    populate_similarity_graph db env.threshold (empty_graph (db.get_lastdocid + 1)) = none ∧
    main_clusters db env.threshold = none ∧
    (main env).status = Status.uncaught_exception ∧ (main env).report = none := by
  have hp : populate_similarity_graph db env.threshold
      (empty_graph (db.get_lastdocid + 1)) = none :=
    (populate_loop_none db env.threshold (populate_ids db) _).2
      ⟨d, (mem_populate_ids db d).2 hd, hfail⟩
  have h1 : ¬ (env.threshold > 100 ∨ env.threshold < 0) := by omega
  refine ⟨hp, by simp [main_clusters, hp], ?_, ?_⟩
  · simp [main, hargc, h1, hdir, hdb, hindexed, hp]
  · simp [main, hargc, h1, hdir, hdb, hindexed, hp]

/-- Witness of the amended C7 on the corpus `failing_query`. -/
theorem query_failure_aborts_witness :
    failing_query_env.argc = 3 ∧
    (0 ≤ failing_query_env.threshold ∧ failing_query_env.threshold ≤ 100) ∧
    failing_query_env.is_directory = true ∧ failing_query_env.db_exists = false ∧
    failing_query_env.indexed = some failing_query ∧
    (1 ≤ 1 ∧ 1 < failing_query.get_lastdocid) ∧
    failing_query.get_mset failing_query_env.threshold 1 = none ∧
    populate_similarity_graph failing_query failing_query_env.threshold
      (empty_graph (failing_query.get_lastdocid + 1)) = none ∧
    main_clusters failing_query failing_query_env.threshold = none ∧
    (main failing_query_env).status = Status.uncaught_exception ∧
    (main failing_query_env).report = none :=
  ⟨rfl, by decide, rfl, rfl, rfl, by decide, rfl,
    query_failure_aborts failing_query_env failing_query 1 rfl (by decide) rfl rfl rfl
      (by decide) rfl⟩

/-- C8: with the two arguments on the command line, `main` ends with the threshold
error exactly when the threshold is below 0 or above 100; it has then called none of
`index_directory`, `populate_similarity_graph`, `find_strong_components` and printed no
report; with a threshold from 0 to 100 and a directory without temporary database the
indexing is run. -/
theorem threshold_validation (env : Environment) (hargc : env.argc = 3) :
    ((main env).status = Status.threshold_out_of_range ↔
      (env.threshold < 0 ∨ 100 < env.threshold)) ∧
    ((env.threshold < 0 ∨ 100 < env.threshold) →
      (main env).steps = [] ∧ (main env).report = none) ∧
    ((0 ≤ env.threshold ∧ env.threshold ≤ 100) → env.is_directory = true →
      env.db_exists = false → Step.index_directory ∈ (main env).steps) := by
  by_cases h1 : env.threshold > 100 ∨ env.threshold < 0
  · have h2 : env.threshold < 0 ∨ 100 < env.threshold := by omega
    refine ⟨?_, ?_, ?_⟩
    · simp [main, hargc, h1, h2]
    · intro _; simp [main, hargc, h1]
    · intro h3; omega
  · have h2 : ¬ (env.threshold < 0 ∨ 100 < env.threshold) := by omega
    refine ⟨?_, fun h => absurd h h2, ?_⟩
    · simp only [h2, iff_false]
      cases hdir : env.is_directory <;> cases hdb : env.db_exists <;>
        cases hrm : env.remove_ok <;> cases hix : env.indexed <;>
        simp [main, hargc, h1, hdir, hdb, hrm, hix] <;>
        split <;> simp
    · intro _ hdir hdb
      cases hrm : env.remove_ok <;> cases hix : env.indexed <;>
        simp [main, hargc, h1, hdir, hdb, hrm, hix] <;>
        split <;> simp

/-- Witness of C8 on the command line of `scenario_a_env`. -/
theorem threshold_validation_witness :
    scenario_a_env.argc = 3 ∧
    ((main scenario_a_env).status = Status.threshold_out_of_range ↔
      (scenario_a_env.threshold < 0 ∨ 100 < scenario_a_env.threshold)) ∧
    ((scenario_a_env.threshold < 0 ∨ 100 < scenario_a_env.threshold) →
      (main scenario_a_env).steps = [] ∧ (main scenario_a_env).report = none) ∧
    ((0 ≤ scenario_a_env.threshold ∧ scenario_a_env.threshold ≤ 100) →
      scenario_a_env.is_directory = true →
      scenario_a_env.db_exists = false → Step.index_directory ∈ (main scenario_a_env).steps) :=
  ⟨rfl, threshold_validation scenario_a_env rfl⟩

/-- C9: whatever the component count and map, the printed blocks come in strictly
increasing component number, one block for each number from 1 to `num - 1` that at
least two vertices `1 ≤ j < nv` have and for no other; the members of a block come in
strictly increasing vertex number, they are exactly the vertices `1 ≤ j < nv` of that
component, and each of them is listed exactly once; the blocks printed for a graph are
those of its count and map. -/
theorem report_order (num : Nat) (component : Nat → Nat) (nv : Nat) :
    ((report_blocks num component nv).map (fun b => b.1)).Pairwise (fun i j => i < j) ∧
    (∀ i, (∃ b ∈ report_blocks num component nv, b.1 = i) ↔
      (1 ≤ i ∧ i < num ∧
        2 ≤ ((Finset.Ico 1 nv).filter (fun j => component j = i)).card)) ∧
    (∀ b ∈ report_blocks num component nv,
      b.2.Pairwise (fun i j => i < j) ∧
      (∀ j, j ∈ b.2 ↔ (1 ≤ j ∧ j < nv ∧ component j = b.1)) ∧
      (∀ j, 1 ≤ j → j < nv → component j = b.1 → b.2.count j = 1)) ∧
    (∀ g : similarity_graph, strong_components g = some (num, component) →
      find_strong_components_ids g = some (report_blocks num component (num_vertices g))) := by
  refine ⟨?_, ?_, ?_, fun g h => find_strong_components_ids_eq g num component h⟩
  · rw [List.pairwise_map]
    exact report_blocks_sorted num component nv
  · intro i
    rw [← component_members_card]
    constructor
    · rintro ⟨b, hb, rfl⟩
      obtain ⟨h1, h2, h3, h4⟩ := (mem_report_blocks _ _ _ b).1 hb
      rw [← h3]
      exact ⟨h1, h2, by omega⟩
    · rintro ⟨h1, h2, h3⟩
      exact ⟨(i, component_members component nv i),
        (mem_report_blocks _ _ _ _).2 ⟨h1, h2, rfl, by simpa using h3⟩, rfl⟩
  · intro b hb
    obtain ⟨_, _, h3, _⟩ := (mem_report_blocks _ _ _ b).1 hb
    have hsorted := component_members_sorted component nv b.1
    have hnd : (component_members component nv b.1).Nodup :=
      hsorted.imp (fun h => Nat.ne_of_lt h)
    rw [h3]
    refine ⟨hsorted, fun j => mem_component_members component nv b.1 j, ?_⟩
    intro j h1 h2 hc
    exact List.count_eq_one_of_mem hnd
      ((mem_component_members component nv b.1 j).2 ⟨h1, h2, hc⟩)

/-- C10: when the provider answers in range, the populated graph still has
`get_lastdocid + 1` vertices, vertex 0 has no out-edge and no in-edge, its component
number is 0 and no other vertex has the number 0; every document has a component number
from 1 to `num - 1` and is met by the loops of the reporter. -/
theorem vertex_zero_owns_component_zero (db : Database) (threshold : Int)
    (hq : provider_in_range db threshold) (hn : db.get_lastdocid < comp_max) :
    ∃ g num component,
      populate_similarity_graph db threshold (empty_graph (db.get_lastdocid + 1)) = some g ∧
      num_vertices g = db.get_lastdocid + 1 ∧
      out_edges g 0 = [] ∧ (∀ x, ¬ edge g x 0) ∧
      strong_components g = some (num, component) ∧
      (∀ v, v < num_vertices g → (component v = 0 ↔ v = 0)) ∧
      (∀ v, 1 ≤ v → v ≤ db.get_lastdocid →
        (1 ≤ component v ∧ component v < num) ∧
        v ∈ component_members component (num_vertices g) (component v)) := by
  obtain ⟨g, num, component, e, hnum, _, h0, hin0, esc, hlt, _, hzero, hnz⟩ :=
    built_components db threshold hq hn
  refine ⟨g, num, component, e, hnum, h0, hin0, esc, ?_, ?_⟩
  · intro v hv
    constructor
    · intro hc
      by_contra hv0
      exact hnz v (by omega) (by omega) hc
    · intro hv0; rw [hv0]; exact hzero
  · intro v h1 h2
    have := hnz v h1 h2
    have := hlt v h2
    refine ⟨⟨by omega, by omega⟩, ?_⟩
    rw [mem_component_members]
    exact ⟨h1, by omega, rfl⟩

/-- Witness of C10 on Scenario A. -/
theorem vertex_zero_owns_component_zero_witness :
    provider_in_range scenario_a 80 ∧ scenario_a.get_lastdocid < comp_max ∧
    ∃ g num component,
      populate_similarity_graph scenario_a 80 (empty_graph (scenario_a.get_lastdocid + 1))
        = some g ∧
      num_vertices g = scenario_a.get_lastdocid + 1 ∧
      out_edges g 0 = [] ∧ (∀ x, ¬ edge g x 0) ∧
      strong_components g = some (num, component) ∧
      (∀ v, v < num_vertices g → (component v = 0 ↔ v = 0)) ∧
      (∀ v, 1 ≤ v → v ≤ scenario_a.get_lastdocid →
        (1 ≤ component v ∧ component v < num) ∧
        v ∈ component_members component (num_vertices g) (component v)) :=
  ⟨scenario_a_in_range, by decide,
    vertex_zero_owns_component_zero scenario_a 80 scenario_a_in_range (by decide)⟩

end Similar
